import Mathlib

/-!
Verification development for a social-media ranking system.

The embedding models `ranking_engine.py` (the `Post` data class, the
`RankingEngine` store with its ranking cache, and the four scoring
algorithms) and `streaming_ranking_engine.py` (the bounded-heap streaming
top-K selector built on CPython's `heapq`).

Modelling conventions:
* Python floats are modelled as rationals (`ℚ`); the transcendental
  functions `math.exp` and `math.log10` are abstracted as an oracle
  (`MathOracle`), since the claims under study do not depend on their
  values.
* Python dicts are insertion-ordered association lists.
* Python exceptions are modelled with `Except PyErr`; a raised exception
  leaves no mutated state behind exactly when the source raises before
  mutating, which is the case for every operation modelled here.
* CPython's `heapq.heappush` / `heapq.heappushpop` (`_siftdown`,
  `_siftup`) are transcribed literally, including the partiality of the
  `(score, post)` tuple comparison: comparing entries with equal scores
  and distinct posts raises `TypeError` because `Post` has no ordering.
-/

/-- Python exceptions raised by the modelled code paths. -/
inductive PyErr where
  | typeError
  | valueErrorDuplicate
  | valueErrorNotFound
  | valueErrorUnknownAlgorithm
  | keyError
  deriving DecidableEq, Repr

/-- The `Post` dataclass of `ranking_engine.py`. -/
structure Post where
  post_id : String
  likes : Int
  comments : Int
  shares : Int
  upvotes : Int
  downvotes : Int
  timestamp : ℚ
  base_score : ℚ
  deriving DecidableEq, Repr

/-- The keyword arguments accepted by `add_post` / `update_post` /
`batch_add_posts`: an optional value for each settable `Post` field
(`post_id` itself cannot be passed as a keyword because it is a named
positional parameter of those methods). -/
structure PostKwargs where
  likes : Option Int
  comments : Option Int
  shares : Option Int
  upvotes : Option Int
  downvotes : Option Int
  timestamp : Option ℚ
  base_score : Option ℚ
  deriving DecidableEq, Repr

/-- No keyword arguments supplied. -/
def noKwargs : PostKwargs := ⟨none, none, none, none, none, none, none⟩

/-- `Post.__post_init__`: recompute `base_score` from the counters. -/
def post_init (p : Post) : Post :=
  { p with base_score := (p.likes : ℚ) + (p.comments : ℚ) * 2 + (p.shares : ℚ) * 3 }

/-- Dataclass field initialization of `Post(post_id=..., **kwargs)`,
before `__post_init__` runs; `timestamp` defaults to the current time. -/
def postFields (now : ℚ) (post_id : String) (kw : PostKwargs) : Post :=
  { post_id := post_id
    likes := kw.likes.getD 0
    comments := kw.comments.getD 0
    shares := kw.shares.getD 0
    upvotes := kw.upvotes.getD 0
    downvotes := kw.downvotes.getD 0
    timestamp := kw.timestamp.getD now
    base_score := kw.base_score.getD 0 }

/-- `Post(post_id=..., **kwargs)`: field initialization followed by
`__post_init__`. -/
def mkPost (now : ℚ) (post_id : String) (kw : PostKwargs) : Post :=
  post_init (postFields now post_id kw)

/-- The reflective partial update of `update_post`: `setattr` for every
supplied keyword (all modelled keywords are real `Post` attributes). -/
def applyKwargs (p : Post) (kw : PostKwargs) : Post :=
  { post_id := p.post_id
    likes := kw.likes.getD p.likes
    comments := kw.comments.getD p.comments
    shares := kw.shares.getD p.shares
    upvotes := kw.upvotes.getD p.upvotes
    downvotes := kw.downvotes.getD p.downvotes
    timestamp := kw.timestamp.getD p.timestamp
    base_score := kw.base_score.getD p.base_score }

/-- The `weights` dict passed to the hybrid scorer: each key optionally
present. -/
structure WeightsMap where
  likes : Option ℚ
  comments : Option ℚ
  shares : Option ℚ
  time_decay : Option ℚ
  deriving DecidableEq, Repr

/-- The `**kwargs` of the scoring entry points. -/
structure ScoreKwargs where
  decay_rate : Option ℚ
  weights : Option WeightsMap
  deriving DecidableEq, Repr

/-- No scoring keyword arguments. -/
def noScoreKwargs : ScoreKwargs := ⟨none, none⟩

/-- Oracle for the transcendental library functions used by the scorers. -/
structure MathOracle where
  exp : ℚ → ℚ
  log10 : ℚ → ℚ

/-- A trivial oracle used to instantiate concrete evaluations. -/
def oracle0 : MathOracle := ⟨fun q => q, fun q => q⟩

/-- Python's `round(x, 7)` (round half to even at 7 decimal places). -/
def pyRoundTo7 (x : ℚ) : ℚ :=
  let y := x * 10 ^ 7
  let f : ℤ := ⌊y⌋
  let r := y - (f : ℚ)
  let n : ℤ :=
    if r < 1 / 2 then f
    else if 1 / 2 < r then f + 1
    else if f % 2 = 0 then f else f + 1
  (n : ℚ) / 10 ^ 7

/-- `RankingEngine._hot_score`. -/
def hot_score (mlib : MathOracle) (now : ℚ) (post : Post) : ℚ :=
  let diff : ℚ := (post.upvotes : ℚ) - (post.downvotes : ℚ)
  let order := mlib.log10 (max |diff| 1)
  let sign : ℚ := if 0 < diff then 1 else if diff < 0 then -1 else 0
  let seconds := now - post.timestamp - 1134028003
  pyRoundTo7 (sign * order + seconds / 45000)

/-- `RankingEngine._engagement_score`. -/
def engagement_score (now : ℚ) (post : Post) : ℚ :=
  let total_engagement : ℚ :=
    (post.likes : ℚ) + (post.comments : ℚ) * 2 + (post.shares : ℚ) * 3
  let time_factor := now - post.timestamp + 1
  total_engagement / time_factor

/-- `RankingEngine._time_decay_score`. -/
def time_decay_score (mlib : MathOracle) (now : ℚ) (post : Post)
    (decay_rate : ℚ) : ℚ :=
  let time_elapsed := now - post.timestamp
  post.base_score * mlib.exp (-(decay_rate * time_elapsed))

/-- A `weights[key]` dict access: `KeyError` when the key is absent. -/
def getWeight : Option ℚ → Except PyErr ℚ
  | some v => .ok v
  | none => .error .keyError

/-- The default weights dict built by `_hybrid_score` when `weights is None`. -/
def default_weights : WeightsMap := ⟨some 1, some 2, some 3, some (1 / 10)⟩

/-- `RankingEngine._hybrid_score`: when a weights dict is supplied it is
used as-is, and every one of the four keys is accessed unconditionally. -/
def hybrid_score (mlib : MathOracle) (now : ℚ) (post : Post)
    (weights : Option WeightsMap) : Except PyErr ℚ :=
  let w := match weights with
    | none => default_weights
    | some w => w
  do
    let wl ← getWeight w.likes
    let wc ← getWeight w.comments
    let ws ← getWeight w.shares
    let engagement :=
      (post.likes : ℚ) * wl + (post.comments : ℚ) * wc + (post.shares : ℚ) * ws
    let wt ← getWeight w.time_decay
    let time_elapsed := now - post.timestamp
    pure (engagement * mlib.exp (-(wt * time_elapsed)))

/-- The set of algorithm names registered in both scoring dispatchers. -/
def validAlgorithms : List String :=
  ["hot_score", "engagement_score", "time_decay", "hybrid"]

/-- The per-post dispatch of `RankingEngine._calculate_scores`. -/
def score_post (mlib : MathOracle) (now : ℚ) (algorithm : String)
    (kw : ScoreKwargs) (post : Post) : Except PyErr ℚ :=
  if algorithm = "hot_score" then .ok (hot_score mlib now post)
  else if algorithm = "engagement_score" then .ok (engagement_score now post)
  else if algorithm = "time_decay" then
    .ok (time_decay_score mlib now post (kw.decay_rate.getD (1 / 100)))
  else if algorithm = "hybrid" then hybrid_score mlib now post kw.weights
  else .error .valueErrorUnknownAlgorithm

/-- `StreamingRankingEngine._calculate_score`: the streaming selector's own
dispatch, delegating to the same scorer functions. -/
def calculate_score (mlib : MathOracle) (now : ℚ) (algorithm : String)
    (kw : ScoreKwargs) (post : Post) : Except PyErr ℚ :=
  if algorithm = "hot_score" then .ok (hot_score mlib now post)
  else if algorithm = "engagement_score" then .ok (engagement_score now post)
  else if algorithm = "time_decay" then
    .ok (time_decay_score mlib now post (kw.decay_rate.getD (1 / 100)))
  else if algorithm = "hybrid" then hybrid_score mlib now post kw.weights
  else .error .valueErrorUnknownAlgorithm

/-- The score a successful dispatch returns (meaningful for a registered
algorithm whose weights, if supplied, are complete). -/
def score_value (mlib : MathOracle) (now : ℚ) (algorithm : String)
    (kw : ScoreKwargs) (post : Post) : ℚ :=
  if algorithm = "hot_score" then hot_score mlib now post
  else if algorithm = "engagement_score" then engagement_score now post
  else if algorithm = "time_decay" then
    time_decay_score mlib now post (kw.decay_rate.getD (1 / 100))
  else
    let w := kw.weights.getD default_weights
    ((post.likes : ℚ) * w.likes.getD 0 + (post.comments : ℚ) * w.comments.getD 0 +
        (post.shares : ℚ) * w.shares.getD 0) *
      mlib.exp (-(w.time_decay.getD 0 * (now - post.timestamp)))

/-- A supplied weights dict contains all four keys. -/
def WeightsComplete (w : WeightsMap) : Prop :=
  w.likes.isSome = true ∧ w.comments.isSome = true ∧
    w.shares.isSome = true ∧ w.time_decay.isSome = true

instance : DecidablePred WeightsComplete := fun w => by
  unfold WeightsComplete
  infer_instance

/-- The scoring call is well-formed: registered algorithm, and if a weights
dict is supplied for `hybrid` it is complete. -/
def ScoreOK (algorithm : String) (kw : ScoreKwargs) : Prop :=
  algorithm ∈ validAlgorithms ∧
    (algorithm = "hybrid" → ∀ w, kw.weights = some w → WeightsComplete w)

/-! ## Python dicts as insertion-ordered association lists -/

/-- `d[k]` lookup returning `none` when absent. -/
def dictGet? {α : Type} (d : List (String × α)) (k : String) : Option α :=
  match d with
  | [] => none
  | kv :: rest => if kv.1 = k then some kv.2 else dictGet? rest k

/-- `d[k] = v`: replace in place when the key exists, else append. -/
def dictSet {α : Type} (d : List (String × α)) (k : String) (v : α) :
    List (String × α) :=
  if (dictGet? d k).isSome then
    d.map (fun kv => if kv.1 = k then (k, v) else kv)
  else d ++ [(k, v)]

/-! ## The resident `RankingEngine` -/

/-- The mutable state of a `RankingEngine`. -/
structure RankingEngine where
  posts : List (String × Post)
  ranking_cache : List (String × List (ℚ × String))
  cache_timestamps : List (String × ℚ)
  cache_ttl : ℚ
  deriving DecidableEq, Repr

/-- `RankingEngine.__init__`. -/
def newEngine : RankingEngine := ⟨[], [], [], 60⟩

/-- `RankingEngine._invalidate_cache`: clear every cached ranking. -/
def invalidate_cache (eng : RankingEngine) : RankingEngine :=
  { eng with ranking_cache := [], cache_timestamps := [] }

/-- `RankingEngine.add_post`. -/
def add_post (now : ℚ) (eng : RankingEngine) (post_id : String)
    (kw : PostKwargs) : Except PyErr RankingEngine :=
  if (dictGet? eng.posts post_id).isSome then .error .valueErrorDuplicate
  else
    .ok (invalidate_cache
      { eng with posts := dictSet eng.posts post_id (mkPost now post_id kw) })

/-- `RankingEngine.update_post`. -/
def update_post (eng : RankingEngine) (post_id : String) (kw : PostKwargs) :
    Except PyErr RankingEngine :=
  match dictGet? eng.posts post_id with
  | none => .error .valueErrorNotFound
  | some post =>
    .ok (invalidate_cache
      { eng with posts := dictSet eng.posts post_id (post_init (applyKwargs post kw)) })

/-- `RankingEngine.batch_add_posts`: insert every item (overwriting existing
ids), then invalidate the cache once. -/
def batch_add_posts (now : ℚ) (eng : RankingEngine)
    (items : List (String × PostKwargs)) : RankingEngine :=
  invalidate_cache
    { eng with
      posts := items.foldl
        (fun ps item => dictSet ps item.1 (mkPost now item.1 item.2)) eng.posts }

/-- `RankingEngine._calculate_scores`: score every stored post in dict
order, failing fast on the first scorer exception. -/
def calculate_scores (mlib : MathOracle) (now : ℚ) (eng : RankingEngine)
    (algorithm : String) (kw : ScoreKwargs) : Except PyErr (List (ℚ × String)) :=
  eng.posts.mapM (fun kv => (score_post mlib now algorithm kw kv.2).map (fun s => (s, kv.1)))

/-- The descending order used by `scores.sort(reverse=True)` on
`(score, post_id)` tuples: score first, then post id. -/
def rankGe (a b : ℚ × String) : Prop :=
  b.1 < a.1 ∨ (a.1 = b.1 ∧ b.2 ≤ a.2)

instance : DecidableRel rankGe := fun a b => by
  unfold rankGe
  infer_instance

/-- `scores.sort(reverse=True)`. -/
def sort_pairs_desc (l : List (ℚ × String)) : List (ℚ × String) :=
  List.insertionSort rankGe l

/-- One row of the list returned by `get_ranked_posts`. -/
structure RankedPost where
  rank : Nat
  post_id : String
  score : ℚ
  likes : Int
  comments : Int
  shares : Int
  upvotes : Int
  downvotes : Int
  timestamp : ℚ
  age_hours : ℚ
  deriving DecidableEq, Repr

/-- The dictionary built for one ranked row. -/
def rankedOf (now : ℚ) (rank : Nat) (score : ℚ) (post_id : String) (p : Post) :
    RankedPost :=
  { rank := rank
    post_id := post_id
    score := score
    likes := p.likes
    comments := p.comments
    shares := p.shares
    upvotes := p.upvotes
    downvotes := p.downvotes
    timestamp := p.timestamp
    age_hours := (now - p.timestamp) / 3600 }

/-- The result-building loop of `get_ranked_posts`: annotate each retained
`(score, post_id)` pair with a 1-based rank and the stored post's current
fields (`KeyError` if a cached id is no longer stored). -/
def buildRanked (now : ℚ) (posts : List (String × Post)) :
    Nat → List (ℚ × String) → Except PyErr (List RankedPost)
  | _, [] => .ok []
  | rank, sp :: rest =>
    match dictGet? posts sp.2 with
    | none => .error .keyError
    | some p =>
      (buildRanked now posts (rank + 1) rest).map
        (fun acc => rankedOf now rank sp.1 sp.2 p :: acc)

/-- `RankingEngine._is_cache_valid`. -/
def is_cache_valid (now : ℚ) (eng : RankingEngine) (algorithm : String) : Bool :=
  match dictGet? eng.cache_timestamps algorithm with
  | none => false
  | some ts => decide (now - ts < eng.cache_ttl)

/-- `RankingEngine.get_ranked_posts`: serve from a valid cache entry, else
compute, sort descending, cache, and annotate the first `limit` entries. -/
def get_ranked_posts (mlib : MathOracle) (now : ℚ) (eng : RankingEngine)
    (algorithm : String) (limit : Nat) (kw : ScoreKwargs) :
    Except PyErr (List RankedPost × RankingEngine) :=
  if is_cache_valid now eng algorithm then
    (buildRanked now eng.posts 1
        (((dictGet? eng.ranking_cache algorithm).getD []).take limit)).map
      (fun res => (res, eng))
  else
    match calculate_scores mlib now eng algorithm kw with
    | .error e => .error e
    | .ok scores =>
      let sorted := sort_pairs_desc scores
      let eng' := { eng with
        ranking_cache := dictSet eng.ranking_cache algorithm sorted
        cache_timestamps := dictSet eng.cache_timestamps algorithm now }
      (buildRanked now eng.posts 1 (sorted.take limit)).map
        (fun res => (res, eng'))

/-! ## The streaming top-K selector and CPython's `heapq` -/

/-- A heap entry: the `(score, post)` tuple pushed by the selector. -/
abbrev Entry : Type := ℚ × Post

/-- The score component of an entry. -/
def escore (e : Entry) : ℚ := e.1

/-- Default entry used for out-of-range list reads (never reached on the
verified paths). -/
def dEntry : Entry := (0, ⟨"", 0, 0, 0, 0, 0, 0, 0⟩)

/-- `heap[i]`. -/
def hget (h : List Entry) (i : Nat) : Entry := h.getD i dEntry

/-- Parent index in the array-encoded binary heap. -/
def par (j : Nat) : Nat := (j - 1) / 2

/-- Python's `<` on `(score, post)` tuples: compare scores first; on a tie,
equal posts make the tuples equal (`False`), and distinct posts raise
`TypeError` because `Post` defines no ordering. -/
def entryLt (a b : Entry) : Except PyErr Bool :=
  if a.1 = b.1 then
    if a.2 = b.2 then .ok false else .error .typeError
  else .ok (decide (a.1 < b.1))

/-- CPython `heapq._siftdown(heap, startpos, pos)` with `newitem = heap[pos]`
passed explicitly (the slot at `pos` is never read again). -/
def siftdown (heap : List Entry) (startpos pos : Nat) (newitem : Entry) :
    Except PyErr (List Entry) :=
  if h : startpos < pos then
    let parentpos := (pos - 1) / 2
    let parent := hget heap parentpos
    match entryLt newitem parent with
    | .error e => .error e
    | .ok true => siftdown (heap.set pos parent) startpos parentpos newitem
    | .ok false => .ok (heap.set pos newitem)
  else .ok (heap.set pos newitem)
termination_by pos
decreasing_by
  omega

/-- CPython `heapq._siftup(heap, pos)` with `newitem = heap[pos]` passed
explicitly: walk the smaller child up to a leaf, then sift the new item
back down towards the root. -/
def siftup (heap : List Entry) (startpos pos : Nat) (newitem : Entry) :
    Except PyErr (List Entry) :=
  if h : 2 * pos + 1 < heap.length then
    let childpos := 2 * pos + 1
    let rightpos := childpos + 1
    if hr : rightpos < heap.length then
      match entryLt (hget heap childpos) (hget heap rightpos) with
      | .error e => .error e
      | .ok true =>
        siftup (heap.set pos (hget heap childpos)) startpos childpos newitem
      | .ok false =>
        siftup (heap.set pos (hget heap rightpos)) startpos rightpos newitem
    else siftup (heap.set pos (hget heap childpos)) startpos childpos newitem
  else siftdown heap startpos pos newitem
termination_by heap.length - pos
decreasing_by
  all_goals simp only [List.length_set]
  all_goals omega

/-- `heapq.heappush`. -/
def heappush (heap : List Entry) (item : Entry) : Except PyErr (List Entry) :=
  siftdown (heap ++ [item]) 0 heap.length item

/-- `heapq.heappushpop`: returns the evicted item together with the new
heap contents. -/
def heappushpop (heap : List Entry) (item : Entry) :
    Except PyErr (Entry × List Entry) :=
  match heap with
  | [] => .ok (item, [])
  | h0 :: rest =>
    match entryLt h0 item with
    | .error e => .error e
    | .ok true => (siftup (item :: rest) 0 0 item).map (fun h => (h0, h))
    | .ok false => .ok (item, h0 :: rest)

/-- Insert an entry into a descending-sorted list using Python's tuple
comparison (the comparison behaviour of `sorted(..., reverse=True)`). -/
def insortDesc (e : Entry) : List Entry → Except PyErr (List Entry)
  | [] => .ok [e]
  | y :: ys =>
    match entryLt y e with
    | .error err => .error err
    | .ok true => .ok (e :: y :: ys)
    | .ok false => (insortDesc e ys).map (fun l => y :: l)

/-- `sorted(min_heap, reverse=True)`. -/
def sortedDesc : List Entry → Except PyErr (List Entry)
  | [] => .ok []
  | x :: xs =>
    match sortedDesc xs with
    | .error e => .error e
    | .ok l => insortDesc x l

/-- One consumed post of the streaming loop: score it, then either push
(heap below capacity) or push-pop (heap at capacity, evicted item
discarded). -/
def streamStep (mlib : MathOracle) (now : ℚ) (algorithm : String)
    (kw : ScoreKwargs) (top_k : Nat) (heap : List Entry) (post : Post) :
    Except PyErr (List Entry) :=
  match calculate_score mlib now algorithm kw post with
  | .error e => .error e
  | .ok score =>
    if heap.length < top_k then heappush heap (score, post)
    else (heappushpop heap (score, post)).map (fun r => r.2)

/-- The batching loop: consume up to `batch_size` posts per batch, stopping
at the first empty batch (so `batch_size = 0` consumes nothing). -/
def chunkList (bs : Nat) (l : List Post) : List (List Post) :=
  if bs = 0 then []
  else if h : l = [] then []
  else l.take bs :: chunkList bs (l.drop bs)
termination_by l.length
decreasing_by
  simp only [List.length_drop]
  cases l with
  | nil => exact absurd rfl h
  | cons a t => simp only [List.length_cons]; omega

/-- The value object returned by `rank_posts_streaming` (wall-time and
memory diagnostics are not modelled). -/
structure StreamingRankingResult where
  top_posts : List Entry
  total_posts_processed : Nat
  algorithm : String
  batch_size : Nat
  deriving DecidableEq, Repr

/-- `StreamingRankingEngine.rank_posts_streaming`: consume the sequence in
batches, maintain the bounded min-heap of capacity `top_k`, then sort the
surviving entries descending. -/
def rank_posts_streaming (mlib : MathOracle) (now : ℚ) (batch_size : Nat)
    (posts : List Post) (algorithm : String) (top_k : Nat) (kw : ScoreKwargs) :
    Except PyErr StreamingRankingResult :=
  let batches := chunkList batch_size posts
  match batches.foldlM
      (fun h batch => batch.foldlM (streamStep mlib now algorithm kw top_k) h) [] with
  | .error e => .error e
  | .ok heap =>
    match sortedDesc heap with
    | .error e => .error e
    | .ok tops =>
      .ok ⟨tops, (batches.map List.length).sum, algorithm, batch_size⟩


/-! ## Association-list (dict) lemmas -/

theorem dictGet?_nil {α : Type} (k : String) : dictGet? ([] : List (String × α)) k = none := rfl

theorem dictGet?_cons {α : Type} (a : String) (b : α) (t : List (String × α))
    (k : String) :
    dictGet? ((a, b) :: t) k = if a = k then some b else dictGet? t k := rfl

theorem dictGet?_map_ne {α : Type} (t : List (String × α)) (k k' : String)
    (v : α) (hne : k' ≠ k) :
    dictGet? (t.map fun kv => if kv.1 = k then (k, v) else kv) k' =
      dictGet? t k' := by
  induction t with
  | nil => rfl
  | cons hd tl ih =>
    obtain ⟨a, b⟩ := hd
    by_cases hh : a = k
    · subst hh
      rw [List.map_cons, if_pos rfl, dictGet?_cons, dictGet?_cons,
        if_neg (fun hc => hne hc.symm), if_neg (fun hc => hne hc.symm), ih]
    · rw [List.map_cons, if_neg hh, dictGet?_cons, dictGet?_cons]
      by_cases hk : a = k'
      · rw [if_pos hk, if_pos hk]
      · rw [if_neg hk, if_neg hk, ih]

theorem dictGet?_map_self {α : Type} (t : List (String × α)) (k : String)
    (v : α) (hs : (dictGet? t k).isSome = true) :
    dictGet? (t.map fun kv => if kv.1 = k then (k, v) else kv) k = some v := by
  induction t with
  | nil => simp [dictGet?] at hs
  | cons hd tl ih =>
    obtain ⟨a, b⟩ := hd
    by_cases hh : a = k
    · subst hh
      rw [List.map_cons, if_pos rfl, dictGet?_cons, if_pos rfl]
    · rw [dictGet?_cons, if_neg hh] at hs
      rw [List.map_cons, if_neg hh, dictGet?_cons, if_neg hh, ih hs]

theorem dictGet?_append_last {α : Type} (t : List (String × α)) (k : String)
    (v : α) (hn : dictGet? t k = none) :
    dictGet? (t ++ [(k, v)]) k = some v := by
  induction t with
  | nil => simp [dictGet?]
  | cons hd tl ih =>
    obtain ⟨a, b⟩ := hd
    by_cases hh : a = k
    · rw [dictGet?_cons, if_pos hh] at hn
      exact absurd hn (by simp)
    · rw [dictGet?_cons, if_neg hh] at hn
      rw [List.cons_append, dictGet?_cons, if_neg hh, ih hn]

theorem dictGet?_append_ne {α : Type} (t : List (String × α)) (k k' : String)
    (v : α) (hne : k' ≠ k) :
    dictGet? (t ++ [(k, v)]) k' = dictGet? t k' := by
  induction t with
  | nil =>
    rw [List.nil_append, dictGet?_cons, dictGet?_nil,
      if_neg (fun hc => hne hc.symm)]
  | cons hd tl ih =>
    obtain ⟨a, b⟩ := hd
    rw [List.cons_append, dictGet?_cons, dictGet?_cons]
    by_cases hk : a = k'
    · rw [if_pos hk, if_pos hk]
    · rw [if_neg hk, if_neg hk, ih]

theorem dictGet?_dictSet_self {α : Type} (d : List (String × α)) (k : String)
    (v : α) : dictGet? (dictSet d k v) k = some v := by
  unfold dictSet
  by_cases hs : (dictGet? d k).isSome
  · rw [if_pos hs]
    exact dictGet?_map_self d k v hs
  · rw [if_neg hs]
    have hn : dictGet? d k = none := by
      cases h : dictGet? d k with
      | none => rfl
      | some w => rw [h] at hs; simp at hs
    exact dictGet?_append_last d k v hn

theorem dictGet?_dictSet_ne {α : Type} (d : List (String × α)) (k k' : String)
    (v : α) (hne : k' ≠ k) : dictGet? (dictSet d k v) k' = dictGet? d k' := by
  unfold dictSet
  by_cases hs : (dictGet? d k).isSome
  · rw [if_pos hs]
    exact dictGet?_map_ne d k k' v hne
  · rw [if_neg hs]
    exact dictGet?_append_ne d k k' v hne

theorem mem_dictSet {α : Type} {d : List (String × α)} {k : String} {v : α}
    {kv : String × α} (h : kv ∈ dictSet d k v) : kv ∈ d ∨ kv = (k, v) := by
  unfold dictSet at h
  by_cases hs : (dictGet? d k).isSome
  · rw [if_pos hs] at h
    rw [List.mem_map] at h
    obtain ⟨kv0, hkv0, heq⟩ := h
    by_cases hh : kv0.1 = k
    · right
      rw [if_pos hh] at heq
      exact heq.symm
    · left
      rw [if_neg hh] at heq
      exact heq ▸ hkv0
  · rw [if_neg hs] at h
    rw [List.mem_append, List.mem_singleton] at h
    exact h

theorem dictGet?_isSome_of_mem {α : Type} {d : List (String × α)} {k : String}
    {v : α} (h : (k, v) ∈ d) : (dictGet? d k).isSome = true := by
  induction d with
  | nil => simp at h
  | cons hd tl ih =>
    obtain ⟨a, b⟩ := hd
    rcases List.mem_cons.mp h with h1 | h1
    · rw [dictGet?_cons, if_pos (congrArg Prod.fst h1.symm)]
      rfl
    · rw [dictGet?_cons]
      by_cases hh : a = k
      · rw [if_pos hh]; rfl
      · rw [if_neg hh]
        exact ih h1

/-! ## Store invariants and operations (claims C3, C4, C5, C6, C10) -/

/-- The `base_score` invariant of one post. -/
def PostWF (p : Post) : Prop :=
  p.base_score = (p.likes : ℚ) + (p.comments : ℚ) * 2 + (p.shares : ℚ) * 3

/-- Every stored post satisfies the `base_score` invariant. -/
def EngineWF (eng : RankingEngine) : Prop := ∀ kv ∈ eng.posts, PostWF kv.2

theorem postWF_post_init (p : Post) : PostWF (post_init p) := rfl

theorem postWF_mkPost (now : ℚ) (pid : String) (kw : PostKwargs) :
    PostWF (mkPost now pid kw) := rfl

theorem engineWF_newEngine : EngineWF newEngine := by
  intro kv h
  exact absurd h (List.not_mem_nil kv)

theorem batch_fold_WF (now : ℚ) (items : List (String × PostKwargs)) :
    ∀ ps : List (String × Post), (∀ kv ∈ ps, PostWF kv.2) →
      ∀ kv ∈ items.foldl
        (fun ps it => dictSet ps it.1 (mkPost now it.1 it.2)) ps, PostWF kv.2 := by
  induction items with
  | nil => intro ps hps kv hkv; exact hps kv hkv
  | cons it rest ih =>
    intro ps hps kv hkv
    refine ih (dictSet ps it.1 (mkPost now it.1 it.2)) ?_ kv hkv
    intro kv0 hkv0
    rcases mem_dictSet hkv0 with h1 | h1
    · exact hps kv0 h1
    · rw [h1]
      exact postWF_mkPost now it.1 it.2

/-- C3: `base_aggregate` (`base_score`) equals `likes + 2*comments + 3*shares`
immediately after creation and is preserved by every store operation,
whatever subset of fields the operation supplies. -/
theorem c3_base_score_invariant : ∀ (now : ℚ) (pid : String) (kw : PostKwargs)
    (eng : RankingEngine) (items : List (String × PostKwargs)),
    PostWF (mkPost now pid kw) ∧
    (∀ eng', add_post now eng pid kw = .ok eng' → EngineWF eng → EngineWF eng') ∧
    (∀ eng', update_post eng pid kw = .ok eng' → EngineWF eng → EngineWF eng') ∧
    (EngineWF eng → EngineWF (batch_add_posts now eng items)) := by
  intro now pid kw eng items
  refine ⟨postWF_mkPost now pid kw, ?_, ?_, ?_⟩
  · intro eng' hok hwf
    unfold add_post at hok
    by_cases hs : (dictGet? eng.posts pid).isSome
    · rw [if_pos hs] at hok
      exact absurd hok (by simp)
    · rw [if_neg hs] at hok
      have he : invalidate_cache
          { eng with posts := dictSet eng.posts pid (mkPost now pid kw) } = eng' :=
        (Except.ok.injEq _ _).mp hok
      subst he
      intro kv hkv
      rcases mem_dictSet hkv with h1 | h1
      · exact hwf kv h1
      · rw [h1]
        exact postWF_mkPost now pid kw
  · intro eng' hok hwf
    unfold update_post at hok
    cases hp : dictGet? eng.posts pid with
    | none => rw [hp] at hok; exact absurd hok (by simp)
    | some p =>
      rw [hp] at hok
      have he : invalidate_cache
          { eng with posts := dictSet eng.posts pid (post_init (applyKwargs p kw)) } = eng' :=
        (Except.ok.injEq _ _).mp hok
      subst he
      intro kv hkv
      rcases mem_dictSet hkv with h1 | h1
      · exact hwf kv h1
      · rw [h1]
        exact postWF_post_init (applyKwargs p kw)
  · intro hwf
    exact batch_fold_WF now items eng.posts hwf

/-- Engine with one post, used to instantiate the store theorems. -/
def engineA : RankingEngine := ⟨[("a", mkPost 100 "a" noKwargs)], [], [], 60⟩

/-- Result of adding post `"x"` to the empty engine. -/
def engineAddX : RankingEngine :=
  invalidate_cache
    { newEngine with posts := dictSet newEngine.posts "x" (mkPost 0 "x" noKwargs) }

theorem c3_base_score_invariant_witness :
    EngineWF newEngine ∧
    add_post 0 newEngine "x" noKwargs = .ok engineAddX ∧
    EngineWF engineAddX ∧
    EngineWF (batch_add_posts 0 newEngine [("x", noKwargs)]) := by
  refine ⟨engineWF_newEngine, rfl, ?_, ?_⟩
  · exact (c3_base_score_invariant 0 "x" noKwargs newEngine []).2.1 engineAddX rfl
      engineWF_newEngine
  · exact (c3_base_score_invariant 0 "x" noKwargs newEngine
      [("x", noKwargs)]).2.2.2 engineWF_newEngine

/-- C5: `add` on an existing id fails with the duplicate-item error and
`update` on a missing id fails with the not-found error; the embedding is
functional, so an error result carries no state change. -/
theorem c5_duplicate_add_missing_update : ∀ (now : ℚ) (eng : RankingEngine)
    (pid : String) (kw : PostKwargs),
    ((dictGet? eng.posts pid).isSome = true →
      add_post now eng pid kw = .error .valueErrorDuplicate) ∧
    (dictGet? eng.posts pid = none →
      update_post eng pid kw = .error .valueErrorNotFound) := by
  intro now eng pid kw
  constructor
  · intro hs
    unfold add_post
    rw [if_pos hs]
  · intro hn
    unfold update_post
    rw [hn]

theorem c5_duplicate_add_missing_update_witness :
    add_post 0 engineA "a" noKwargs = .error .valueErrorDuplicate ∧
    update_post engineA "b" noKwargs = .error .valueErrorNotFound :=
  ⟨(c5_duplicate_add_missing_update 0 engineA "a" noKwargs).1 rfl,
   (c5_duplicate_add_missing_update 0 engineA "b" noKwargs).2 rfl⟩

/-- The last keyword-argument set supplied for a given id in a batch. -/
def lastKw : List (String × PostKwargs) → String → Option PostKwargs
  | [], _ => none
  | it :: rest, pid =>
    match lastKw rest pid with
    | some kw => some kw
    | none => if it.1 = pid then some it.2 else none

theorem batch_fold_lookup (now : ℚ) :
    ∀ (items : List (String × PostKwargs)) (ps : List (String × Post))
      (pid : String),
    dictGet? (items.foldl
        (fun ps it => dictSet ps it.1 (mkPost now it.1 it.2)) ps) pid =
      (match lastKw items pid with
       | some kw0 => some (mkPost now pid kw0)
       | none => dictGet? ps pid) := by
  intro items
  induction items with
  | nil => intro ps pid; rfl
  | cons it rest ih =>
    intro ps pid
    rw [List.foldl_cons, ih]
    cases hl : lastKw rest pid with
    | some kw0 => simp [lastKw, hl]
    | none =>
      simp only [lastKw, hl]
      by_cases hh : it.1 = pid
      · rw [if_pos hh, ← hh, dictGet?_dictSet_self]
      · rw [if_neg hh, dictGet?_dictSet_ne ps it.1 pid (mkPost now it.1 it.2)
          (fun hc => hh hc.symm)]

/-- C6: `batch_add` inserts every item, overwriting any existing id (the
stored post for an id is built from the last kwargs in the batch carrying
that id) — unlike single `add`, which rejects duplicates — and the cache is
cleared once for the whole batch. -/
theorem c6_batch_add_overwrites : ∀ (now : ℚ) (eng : RankingEngine)
    (items : List (String × PostKwargs)) (pid : String) (kw : PostKwargs),
    (batch_add_posts now eng items).ranking_cache = [] ∧
    (batch_add_posts now eng items).cache_timestamps = [] ∧
    dictGet? (batch_add_posts now eng items).posts pid =
      (match lastKw items pid with
       | some kw0 => some (mkPost now pid kw0)
       | none => dictGet? eng.posts pid) ∧
    ((dictGet? eng.posts pid).isSome = true →
      add_post now eng pid kw = .error .valueErrorDuplicate) := by
  intro now eng items pid kw
  refine ⟨rfl, rfl, ?_, ?_⟩
  · exact batch_fold_lookup now items eng.posts pid
  · intro hs
    unfold add_post
    rw [if_pos hs]

/-- Batch with a duplicated id, the second entry winning. -/
def dupBatch : List (String × PostKwargs) :=
  [("x", ⟨some 1, none, none, none, none, none, none⟩),
   ("x", ⟨some 99, none, none, none, none, none, none⟩)]

theorem c6_batch_add_overwrites_witness :
    dictGet? (batch_add_posts 0 newEngine dupBatch).posts "x" =
      some (mkPost 0 "x" ⟨some 99, none, none, none, none, none, none⟩) ∧
    add_post 0 engineA "a" noKwargs = .error .valueErrorDuplicate := by
  constructor
  · exact ((c6_batch_add_overwrites 0 newEngine dupBatch "x" noKwargs).2.2.1).trans rfl
  · exact (c6_batch_add_overwrites 0 engineA [] "a" noKwargs).2.2.2 rfl

/-- C10 (amended): a successful `update` changes only the supplied fields
(every unsupplied field keeps its previous value, with `base_score`
recomputed), never touches any other stored post, and cannot change the
post id; however `timestamp` (`created_at`) is an ordinary settable
attribute, so an update supplying it does change it. -/
theorem c10_update_frame : ∀ (eng : RankingEngine) (pid : String)
    (kw : PostKwargs) (eng' : RankingEngine),
    update_post eng pid kw = .ok eng' →
    ∃ p, dictGet? eng.posts pid = some p ∧
      dictGet? eng'.posts pid = some (post_init (applyKwargs p kw)) ∧
      (post_init (applyKwargs p kw)).post_id = p.post_id ∧
      (kw.likes = none → (post_init (applyKwargs p kw)).likes = p.likes) ∧
      (kw.comments = none → (post_init (applyKwargs p kw)).comments = p.comments) ∧
      (kw.shares = none → (post_init (applyKwargs p kw)).shares = p.shares) ∧
      (kw.upvotes = none → (post_init (applyKwargs p kw)).upvotes = p.upvotes) ∧
      (kw.downvotes = none → (post_init (applyKwargs p kw)).downvotes = p.downvotes) ∧
      (kw.timestamp = none → (post_init (applyKwargs p kw)).timestamp = p.timestamp) ∧
      (∀ q, kw.timestamp = some q → (post_init (applyKwargs p kw)).timestamp = q) ∧
      (∀ pid', pid' ≠ pid → dictGet? eng'.posts pid' = dictGet? eng.posts pid') := by
  intro eng pid kw eng' hok
  unfold update_post at hok
  cases hp : dictGet? eng.posts pid with
  | none => rw [hp] at hok; exact absurd hok (by simp)
  | some p =>
    rw [hp] at hok
    have he : invalidate_cache
        { eng with posts := dictSet eng.posts pid (post_init (applyKwargs p kw)) } = eng' :=
      (Except.ok.injEq _ _).mp hok
    subst he
    refine ⟨p, rfl, ?_, rfl, ?_, ?_, ?_, ?_, ?_, ?_, ?_, ?_⟩
    · exact dictGet?_dictSet_self eng.posts pid (post_init (applyKwargs p kw))
    · intro h; simp [post_init, applyKwargs, h]
    · intro h; simp [post_init, applyKwargs, h]
    · intro h; simp [post_init, applyKwargs, h]
    · intro h; simp [post_init, applyKwargs, h]
    · intro h; simp [post_init, applyKwargs, h]
    · intro h; simp [post_init, applyKwargs, h]
    · intro q h; simp [post_init, applyKwargs, h]
    · intro pid' hne
      exact dictGet?_dictSet_ne eng.posts pid pid' (post_init (applyKwargs p kw)) hne

/-- Kwargs supplying only a new timestamp. -/
def tsKwargs : PostKwargs := ⟨none, none, none, none, none, some 200, none⟩

/-- C10 counterexample: `created_at` (`timestamp`) is not immutable — an
update supplying `timestamp` changes the stored post's timestamp from 100
to 200. -/
theorem c10_timestamp_mutable_counterexample :
    (dictGet? engineA.posts "a").map Post.timestamp = some 100 ∧
    ((update_post engineA "a" tsKwargs).toOption.bind
        (fun e => (dictGet? e.posts "a").map Post.timestamp)) = some 200 :=
  ⟨rfl, rfl⟩

/-- The post stored for `"a"` after updating its timestamp. -/
def postAUpdTs : Post := post_init (applyKwargs (mkPost 100 "a" noKwargs) tsKwargs)

/-- The engine produced by the timestamp update of `engineA`. -/
def engineAUpdTs : RankingEngine :=
  invalidate_cache { engineA with posts := dictSet engineA.posts "a" postAUpdTs }

theorem c10_update_frame_witness :
    ∃ p, dictGet? engineA.posts "a" = some p ∧
      dictGet? engineAUpdTs.posts "a" = some (post_init (applyKwargs p tsKwargs)) ∧
      (post_init (applyKwargs p tsKwargs)).post_id = p.post_id ∧
      (tsKwargs.likes = none → (post_init (applyKwargs p tsKwargs)).likes = p.likes) ∧
      (tsKwargs.comments = none → (post_init (applyKwargs p tsKwargs)).comments = p.comments) ∧
      (tsKwargs.shares = none → (post_init (applyKwargs p tsKwargs)).shares = p.shares) ∧
      (tsKwargs.upvotes = none → (post_init (applyKwargs p tsKwargs)).upvotes = p.upvotes) ∧
      (tsKwargs.downvotes = none → (post_init (applyKwargs p tsKwargs)).downvotes = p.downvotes) ∧
      (tsKwargs.timestamp = none → (post_init (applyKwargs p tsKwargs)).timestamp = p.timestamp) ∧
      (∀ q, tsKwargs.timestamp = some q → (post_init (applyKwargs p tsKwargs)).timestamp = q) ∧
      (∀ pid', pid' ≠ "a" → dictGet? engineAUpdTs.posts pid' = dictGet? engineA.posts pid') :=
  c10_update_frame engineA "a" tsKwargs engineAUpdTs (by rfl)

/-! ## Cache invalidation and fresh recomputation (claim C4) -/

/-- Score every post of a stored mapping (the body of
`_calculate_scores`, independent of the engine record). -/
def fresh_scores (mlib : MathOracle) (now : ℚ) (posts : List (String × Post))
    (algorithm : String) (kw : ScoreKwargs) : Except PyErr (List (ℚ × String)) :=
  posts.mapM (fun kv => (score_post mlib now algorithm kw kv.2).map (fun s => (s, kv.1)))

/-- The ranking `get_ranked_posts` computes when no cache entry is
consulted: score all posts, sort descending, annotate the first `limit`. -/
def fresh_ranked (mlib : MathOracle) (now : ℚ) (posts : List (String × Post))
    (algorithm : String) (limit : Nat) (kw : ScoreKwargs) :
    Except PyErr (List RankedPost) :=
  match fresh_scores mlib now posts algorithm kw with
  | .error e => .error e
  | .ok scores => buildRanked now posts 1 ((sort_pairs_desc scores).take limit)

theorem calculate_scores_eq_fresh (mlib : MathOracle) (now : ℚ)
    (eng : RankingEngine) (algorithm : String) (kw : ScoreKwargs) :
    calculate_scores mlib now eng algorithm kw =
      fresh_scores mlib now eng.posts algorithm kw := rfl

theorem get_ranked_no_cache (mlib : MathOracle) (now : ℚ) (eng : RankingEngine)
    (algorithm : String) (limit : Nat) (kw : ScoreKwargs)
    (hcache : dictGet? eng.cache_timestamps algorithm = none) :
    (get_ranked_posts mlib now eng algorithm limit kw).map Prod.fst =
      fresh_ranked mlib now eng.posts algorithm limit kw := by
  have hvalid : is_cache_valid now eng algorithm = false := by
    unfold is_cache_valid
    rw [hcache]
  unfold get_ranked_posts fresh_ranked
  rw [hvalid]
  simp only [Bool.false_eq_true, if_false]
  rw [calculate_scores_eq_fresh]
  cases fresh_scores mlib now eng.posts algorithm kw with
  | error e => rfl
  | ok scores =>
    simp only []
    cases buildRanked now eng.posts 1 ((sort_pairs_desc scores).take limit) with
    | error e => rfl
    | ok res => rfl

/-- C4: every mutating store operation clears the whole ranking cache (all
algorithms), and a ranking requested after an update is recomputed from
the post-mutation store — it equals the pure function `fresh_ranked` of
the updated posts, so no pre-mutation score can be served. -/
theorem c4_mutation_invalidates_cache : ∀ (mlib : MathOracle) (now now2 : ℚ)
    (eng : RankingEngine) (pid : String) (kw : PostKwargs)
    (items : List (String × PostKwargs)) (algorithm : String) (limit : Nat)
    (skw : ScoreKwargs),
    (∀ eng', add_post now eng pid kw = .ok eng' →
      eng'.ranking_cache = [] ∧ eng'.cache_timestamps = []) ∧
    (∀ eng', update_post eng pid kw = .ok eng' →
      eng'.ranking_cache = [] ∧ eng'.cache_timestamps = []) ∧
    ((batch_add_posts now eng items).ranking_cache = [] ∧
      (batch_add_posts now eng items).cache_timestamps = []) ∧
    (∀ eng', update_post eng pid kw = .ok eng' →
      (get_ranked_posts mlib now2 eng' algorithm limit skw).map Prod.fst =
        fresh_ranked mlib now2 eng'.posts algorithm limit skw) := by
  intro mlib now now2 eng pid kw items algorithm limit skw
  have hupd : ∀ eng', update_post eng pid kw = .ok eng' →
      eng'.ranking_cache = [] ∧ eng'.cache_timestamps = [] := by
    intro eng' hok
    unfold update_post at hok
    cases hp : dictGet? eng.posts pid with
    | none => rw [hp] at hok; exact absurd hok (by simp)
    | some p =>
      rw [hp] at hok
      have he : invalidate_cache
          { eng with posts := dictSet eng.posts pid (post_init (applyKwargs p kw)) } = eng' :=
        (Except.ok.injEq _ _).mp hok
      subst he
      exact ⟨rfl, rfl⟩
  refine ⟨?_, hupd, ⟨rfl, rfl⟩, ?_⟩
  · intro eng' hok
    unfold add_post at hok
    by_cases hs : (dictGet? eng.posts pid).isSome
    · rw [if_pos hs] at hok
      exact absurd hok (by simp)
    · rw [if_neg hs] at hok
      have he : invalidate_cache
          { eng with posts := dictSet eng.posts pid (mkPost now pid kw) } = eng' :=
        (Except.ok.injEq _ _).mp hok
      subst he
      exact ⟨rfl, rfl⟩
  · intro eng' hok
    have hts := (hupd eng' hok).2
    exact get_ranked_no_cache mlib now2 eng' algorithm limit skw (by rw [hts]; rfl)

/-- Engine with one post and a populated (stale) cache, used to exercise
the invalidation theorem. -/
def engineCached : RankingEngine :=
  ⟨[("a", mkPost 100 "a" noKwargs)],
   [("hot_score", [(1, "a")])], [("hot_score", 50)], 60⟩

/-- Kwargs supplying only a new likes counter. -/
def likesKwargs : PostKwargs := ⟨some 5, none, none, none, none, none, none⟩

/-- The post stored for `"a"` after the likes update. -/
def postAUpdLikes : Post := post_init (applyKwargs (mkPost 100 "a" noKwargs) likesKwargs)

/-- The engine produced by updating post `"a"` of `engineCached`. -/
def engineCachedUpd : RankingEngine :=
  invalidate_cache { engineCached with posts := dictSet engineCached.posts "a" postAUpdLikes }

theorem c4_mutation_invalidates_cache_witness :
    update_post engineCached "a" likesKwargs = .ok engineCachedUpd ∧
    engineCachedUpd.ranking_cache = [] ∧
    engineCachedUpd.cache_timestamps = [] ∧
    (get_ranked_posts oracle0 0 engineCachedUpd "engagement_score" 10
        noScoreKwargs).map Prod.fst =
      fresh_ranked oracle0 0 engineCachedUpd.posts "engagement_score" 10
        noScoreKwargs := by
  have h := c4_mutation_invalidates_cache oracle0 100 0 engineCached "a"
    likesKwargs [] "engagement_score" 10 noScoreKwargs
  have hok : update_post engineCached "a" likesKwargs = .ok engineCachedUpd := by rfl
  exact ⟨hok, (h.2.1 engineCachedUpd hok).1, (h.2.1 engineCachedUpd hok).2,
    h.2.2.2 engineCachedUpd hok⟩

/-! ## Hybrid weights (claim C8) -/

/-- C8 counterexample: supplying a partial weights map (`likes` only) does
not fall back to per-key defaults — the scorer fails with `KeyError` on the
first missing key. -/
theorem c8_partial_weights_counterexample :
    hybrid_score oracle0 0 (mkPost 0 "p" noKwargs)
      (some ⟨some 1, none, none, none⟩) = .error .keyError := rfl

/-- C8 (amended): the per-key defaults apply only when no weights map is
supplied at all (`weights=None`); a supplied map is used as-is, succeeding
exactly when it contains all four keys and raising `KeyError` whenever any
key is missing. -/
theorem c8_hybrid_weight_defaults : ∀ (mlib : MathOracle) (now : ℚ) (post : Post),
    (hybrid_score mlib now post none =
      .ok (((post.likes : ℚ) * 1 + (post.comments : ℚ) * 2 + (post.shares : ℚ) * 3) *
        mlib.exp (-(1 / 10 * (now - post.timestamp))))) ∧
    (∀ (w : WeightsMap) (wl wc ws wt : ℚ),
      w.likes = some wl → w.comments = some wc → w.shares = some ws →
      w.time_decay = some wt →
      hybrid_score mlib now post (some w) =
        .ok (((post.likes : ℚ) * wl + (post.comments : ℚ) * wc + (post.shares : ℚ) * ws) *
          mlib.exp (-(wt * (now - post.timestamp))))) ∧
    (∀ w : WeightsMap,
      (w.likes = none ∨ w.comments = none ∨ w.shares = none ∨ w.time_decay = none) →
      hybrid_score mlib now post (some w) = .error .keyError) := by
  intro mlib now post
  refine ⟨rfl, ?_, ?_⟩
  · intro w wl wc ws wt hl hc hs ht
    obtain ⟨a, b, c, d⟩ := w
    simp only at hl hc hs ht
    subst hl; subst hc; subst hs; subst ht
    rfl
  · intro w h
    obtain ⟨a, b, c, d⟩ := w
    simp only at h
    rcases h with h | h | h | h
    · subst h; rfl
    · subst h
      cases a with
      | none => rfl
      | some x => rfl
    · subst h
      cases a with
      | none => rfl
      | some x =>
        cases b with
        | none => rfl
        | some y => rfl
    · subst h
      cases a with
      | none => rfl
      | some x =>
        cases b with
        | none => rfl
        | some y =>
          cases c with
          | none => rfl
          | some z => rfl

/-- A post used to instantiate the scorer theorems. -/
def postW : Post := mkPost 0 "w" noKwargs

theorem c8_hybrid_weight_defaults_witness :
    hybrid_score oracle0 0 postW none =
      .ok (((postW.likes : ℚ) * 1 + (postW.comments : ℚ) * 2 + (postW.shares : ℚ) * 3) *
        oracle0.exp (-(1 / 10 * (0 - postW.timestamp)))) ∧
    hybrid_score oracle0 0 postW (some ⟨some 4, some 5, some 6, some 7⟩) =
      .ok (((postW.likes : ℚ) * 4 + (postW.comments : ℚ) * 5 + (postW.shares : ℚ) * 6) *
        oracle0.exp (-(7 * (0 - postW.timestamp)))) ∧
    hybrid_score oracle0 0 postW (some ⟨none, some 5, some 6, some 7⟩) =
      .error .keyError :=
  ⟨(c8_hybrid_weight_defaults oracle0 0 postW).1,
   (c8_hybrid_weight_defaults oracle0 0 postW).2.1 ⟨some 4, some 5, some 6, some 7⟩
     4 5 6 7 rfl rfl rfl rfl,
   (c8_hybrid_weight_defaults oracle0 0 postW).2.2 ⟨none, some 5, some 6, some 7⟩
     (Or.inl rfl)⟩

/-! ## Unknown-algorithm behaviour (claim C9) -/

theorem except_bind_ok {ε α β : Type} (a : α) (f : α → Except ε β) :
    (Except.ok a >>= f : Except ε β) = f a := rfl

theorem except_bind_err {ε α β : Type} (e : ε) (f : α → Except ε β) :
    ((Except.error e : Except ε α) >>= f : Except ε β) = .error e := rfl

theorem except_map_ok {ε α β : Type} (a : α) (f : α → β) :
    (Except.ok a : Except ε α).map f = .ok (f a) := rfl

theorem except_map_err {ε α β : Type} (e : ε) (f : α → β) :
    ((Except.error e : Except ε α).map f : Except ε β) = .error e := rfl

theorem hybrid_ne_unknown (mlib : MathOracle) (now : ℚ) (post : Post)
    (weights : Option WeightsMap) :
    hybrid_score mlib now post weights ≠ .error .valueErrorUnknownAlgorithm := by
  rcases weights with _ | w
  · intro hc
    exact absurd hc (by
      simp [hybrid_score, default_weights, getWeight, except_bind_ok])
  · obtain ⟨a, b, c, d⟩ := w
    cases a <;> cases b <;> cases c <;> cases d <;>
      simp [hybrid_score, getWeight, except_bind_ok, except_bind_err]

theorem score_post_unknown_iff (mlib : MathOracle) (now : ℚ) (algorithm : String)
    (kw : ScoreKwargs) (p : Post) :
    score_post mlib now algorithm kw p = .error .valueErrorUnknownAlgorithm ↔
      algorithm ∉ validAlgorithms := by
  constructor
  · intro he hmem
    simp only [validAlgorithms, List.mem_cons] at hmem
    rcases hmem with h | h | h | h | h
    · rw [score_post, if_pos h] at he
      exact absurd he (by simp)
    · rw [score_post] at he
      rw [if_neg (by rw [h]; decide), if_pos h] at he
      exact absurd he (by simp)
    · rw [score_post] at he
      rw [if_neg (by rw [h]; decide), if_neg (by rw [h]; decide), if_pos h] at he
      exact absurd he (by simp)
    · rw [score_post] at he
      rw [if_neg (by rw [h]; decide), if_neg (by rw [h]; decide),
        if_neg (by rw [h]; decide), if_pos h] at he
      exact absurd he (hybrid_ne_unknown mlib now p kw.weights)
    · simp at h
  · intro hmem
    simp only [validAlgorithms, List.mem_cons, List.not_mem_nil, or_false,
      not_or] at hmem
    obtain ⟨h1, h2, h3, h4⟩ := hmem
    rw [score_post, if_neg h1, if_neg h2, if_neg h3, if_neg h4]

/-- C9 (amended): the two dispatchers reject exactly the same set of
algorithm names, and an unregistered name makes both the resident engine
(on a non-empty store with no cached entry) and the streaming selector
(on a non-empty sequence) fail with the unknown-algorithm error; on an
empty store or sequence no post is scored and no error is raised. -/
theorem c9_unknown_algorithm_agreement : ∀ (mlib : MathOracle) (now : ℚ)
    (algorithm : String) (kw : ScoreKwargs),
    (∀ p : Post,
      (score_post mlib now algorithm kw p = .error .valueErrorUnknownAlgorithm ↔
        algorithm ∉ validAlgorithms) ∧
      (calculate_score mlib now algorithm kw p = .error .valueErrorUnknownAlgorithm ↔
        algorithm ∉ validAlgorithms)) ∧
    (algorithm ∉ validAlgorithms →
      (∀ (eng : RankingEngine) (limit : Nat), eng.posts ≠ [] →
        dictGet? eng.cache_timestamps algorithm = none →
        get_ranked_posts mlib now eng algorithm limit kw =
          .error .valueErrorUnknownAlgorithm) ∧
      (∀ (posts : List Post) (bs K : Nat), posts ≠ [] → 0 < bs →
        rank_posts_streaming mlib now bs posts algorithm K kw =
          .error .valueErrorUnknownAlgorithm)) := by
  intro mlib now algorithm kw
  have hsame : ∀ p, calculate_score mlib now algorithm kw p =
      score_post mlib now algorithm kw p := fun _ => rfl
  constructor
  · intro p
    refine ⟨score_post_unknown_iff mlib now algorithm kw p, ?_⟩
    rw [hsame p]
    exact score_post_unknown_iff mlib now algorithm kw p
  · intro hmem
    constructor
    · intro eng limit hne hcache
      have hvalid : is_cache_valid now eng algorithm = false := by
        unfold is_cache_valid
        rw [hcache]
      cases hps : eng.posts with
      | nil => exact absurd hps hne
      | cons kv rest =>
        have hsc : calculate_scores mlib now eng algorithm kw =
            .error .valueErrorUnknownAlgorithm := by
          unfold calculate_scores
          rw [hps, List.mapM_cons,
            (score_post_unknown_iff mlib now algorithm kw kv.2).mpr hmem]
          rfl
        unfold get_ranked_posts
        rw [hvalid]
        simp only [Bool.false_eq_true, if_false, hsc]
    · intro posts bs K hne hbs
      cases posts with
      | nil => exact absurd rfl hne
      | cons p rest =>
        obtain ⟨m, hm⟩ : ∃ m, bs = m + 1 := ⟨bs - 1, by omega⟩
        subst hm
        have hstep : streamStep mlib now algorithm kw K [] p =
            .error .valueErrorUnknownAlgorithm := by
          unfold streamStep
          rw [hsame p, (score_post_unknown_iff mlib now algorithm kw p).mpr hmem]
        have h1 : List.foldlM (streamStep mlib now algorithm kw K) ([] : List Entry)
            (p :: List.take m rest) = .error .valueErrorUnknownAlgorithm := by
          rw [List.foldlM_cons, hstep]
          rfl
        unfold rank_posts_streaming
        rw [chunkList]
        rw [if_neg (by omega), dif_neg (by simp)]
        simp only [List.take_succ_cons, List.foldlM_cons, h1, except_bind_err]

/-- C9 counterexample: with an empty store (resp. an empty input sequence)
the unknown-algorithm check is never reached, so an unregistered name
raises no error: `get_ranked_posts` returns an empty ranking (and caches
it) and the streaming selector returns an empty result. -/
theorem c9_no_error_on_empty_counterexample :
    get_ranked_posts oracle0 0 newEngine "not_a_real_algorithm" 100 noScoreKwargs =
      .ok ([], ⟨[], [("not_a_real_algorithm", [])], [("not_a_real_algorithm", 0)], 60⟩) ∧
    rank_posts_streaming oracle0 0 100000 [] "not_a_real_algorithm" 100 noScoreKwargs =
      .ok ⟨[], 0, "not_a_real_algorithm", 100000⟩ := by
  constructor
  · rfl
  · have hc : chunkList 100000 ([] : List Post) = [] := by
      rw [chunkList]
      simp
    simp only [rank_posts_streaming, hc, List.foldlM_nil, List.map_nil,
      List.sum_nil]
    rfl

theorem c9_unknown_algorithm_agreement_witness :
    score_post oracle0 0 "not_a_real_algorithm" noScoreKwargs postW =
      .error .valueErrorUnknownAlgorithm ∧
    calculate_score oracle0 0 "not_a_real_algorithm" noScoreKwargs postW =
      .error .valueErrorUnknownAlgorithm ∧
    get_ranked_posts oracle0 0 engineA "not_a_real_algorithm" 100 noScoreKwargs =
      .error .valueErrorUnknownAlgorithm ∧
    rank_posts_streaming oracle0 0 1 [postW] "not_a_real_algorithm" 10 noScoreKwargs =
      .error .valueErrorUnknownAlgorithm := by
  have h := c9_unknown_algorithm_agreement oracle0 0 "not_a_real_algorithm"
    noScoreKwargs
  have hmem : "not_a_real_algorithm" ∉ validAlgorithms := by decide
  refine ⟨((h.1 postW).1).mpr hmem, ((h.1 postW).2).mpr hmem, ?_, ?_⟩
  · exact (h.2 hmem).1 engineA 100 (by simp [engineA]) rfl
  · exact (h.2 hmem).2 [postW] 1 10 (by simp) (by decide)

/-! ## Shape of `get_ranked_posts` output (claim C7) -/

instance : IsTotal (ℚ × String) rankGe := by
  constructor
  intro a b
  rcases lt_trichotomy a.1 b.1 with h | h | h
  · exact Or.inr (Or.inl h)
  · rcases le_total a.2 b.2 with h2 | h2
    · exact Or.inr (Or.inr ⟨h.symm, h2⟩)
    · exact Or.inl (Or.inr ⟨h, h2⟩)
  · exact Or.inl (Or.inl h)

instance : IsTrans (ℚ × String) rankGe := by
  constructor
  intro a b c hab hbc
  rcases hab with h1 | ⟨h1, h1s⟩
  · rcases hbc with h2 | ⟨h2, h2s⟩
    · exact Or.inl (h2.trans h1)
    · exact Or.inl (h2 ▸ h1)
  · rcases hbc with h2 | ⟨h2, h2s⟩
    · exact Or.inl (h1 ▸ h2)
    · exact Or.inr ⟨h1.trans h2, h2s.trans h1s⟩

instance : IsAntisymm (ℚ × String) rankGe := by
  constructor
  intro a b hab hba
  rcases hab with h1 | ⟨h1, h1s⟩
  · rcases hba with h2 | ⟨h2, h2s⟩
    · exact absurd (h1.trans h2) (lt_irrefl _)
    · exact absurd h1 (h2 ▸ lt_irrefl _)
  · rcases hba with h2 | ⟨h2, h2s⟩
    · exact absurd h2 (h1 ▸ lt_irrefl _)
    · exact Prod.ext h1 (le_antisymm h2s h1s)

theorem sort_pairs_desc_sorted (l : List (ℚ × String)) :
    List.Sorted rankGe (sort_pairs_desc l) :=
  List.sorted_insertionSort rankGe l

theorem sort_pairs_desc_perm (l : List (ℚ × String)) :
    (sort_pairs_desc l).Perm l :=
  List.perm_insertionSort rankGe l

theorem mapM_ok_spec {α β : Type} (f : α → Except PyErr β) :
    ∀ (l : List α) (out : List β), l.mapM f = .ok out →
      out.length = l.length ∧ ∀ y ∈ out, ∃ x ∈ l, f x = .ok y := by
  intro l
  induction l with
  | nil =>
    intro out hok
    rw [List.mapM_nil] at hok
    have : ([] : List β) = out := (Except.ok.injEq _ _).mp hok
    subst this
    exact ⟨rfl, by intro y hy; simp at hy⟩
  | cons a rest ih =>
    intro out hok
    rw [List.mapM_cons] at hok
    cases hfa : f a with
    | error e => rw [hfa, except_bind_err] at hok; exact absurd hok (by simp)
    | ok b =>
      rw [hfa, except_bind_ok] at hok
      cases hrest : rest.mapM f with
      | error e => rw [hrest, except_bind_err] at hok; exact absurd hok (by simp)
      | ok bs =>
        rw [hrest, except_bind_ok] at hok
        have : b :: bs = out := (Except.ok.injEq _ _).mp hok
        subst this
        obtain ⟨hlen, hmem⟩ := ih bs hrest
        constructor
        · simp [hlen]
        · intro y hy
          rcases List.mem_cons.mp hy with h | h
          · exact ⟨a, List.mem_cons_self a rest, h ▸ hfa⟩
          · obtain ⟨x, hx, hfx⟩ := hmem y h
            exact ⟨x, List.mem_cons_of_mem a hx, hfx⟩

theorem buildRanked_spec (now : ℚ) (posts : List (String × Post)) :
    ∀ (pairs : List (ℚ × String)) (r : Nat),
    (∀ sp ∈ pairs, (dictGet? posts sp.2).isSome = true) →
    ∃ out, buildRanked now posts r pairs = .ok out ∧
      out.map (fun rp => (rp.score, rp.post_id)) = pairs ∧
      (∀ i (hi : i < out.length), (out.get ⟨i, hi⟩).rank = r + i) ∧
      (∀ rp ∈ out, ∃ p, dictGet? posts rp.post_id = some p ∧
        rp = rankedOf now rp.rank rp.score rp.post_id p) := by
  intro pairs
  induction pairs with
  | nil =>
    intro r hall
    refine ⟨[], rfl, rfl, ?_, ?_⟩
    · intro i hi; simp at hi
    · intro rp hrp; simp at hrp
  | cons sp rest ih =>
    intro r hall
    obtain ⟨s, pid⟩ := sp
    have hs : (dictGet? posts pid).isSome = true :=
      hall (s, pid) (List.mem_cons_self _ _)
    obtain ⟨p, hp⟩ := Option.isSome_iff_exists.mp hs
    obtain ⟨out', hok', hmap', hrank', hmem'⟩ :=
      ih (r + 1) (fun sp hsp => hall sp (List.mem_cons_of_mem _ hsp))
    refine ⟨rankedOf now r s pid p :: out', ?_, ?_, ?_, ?_⟩
    · show buildRanked now posts r ((s, pid) :: rest) = _
      unfold buildRanked
      rw [hp, hok']
      rfl
    · simp only [List.map_cons, hmap']
      rfl
    · intro i hi
      cases i with
      | zero => rfl
      | succ j =>
        have hj : j < out'.length := by
          simpa using Nat.lt_of_succ_lt_succ (by simpa using hi)
        have := hrank' j hj
        show (out'.get ⟨j, hj⟩).rank = r + (j + 1)
        rw [this]
        omega
    · intro rp hrp
      rcases List.mem_cons.mp hrp with h | h
      · subst h
        exact ⟨p, hp, rfl⟩
      · exact hmem' rp h

theorem buildRanked_ok_spec (now : ℚ) (posts : List (String × Post)) :
    ∀ (pairs : List (ℚ × String)) (r : Nat) (out : List RankedPost),
    buildRanked now posts r pairs = .ok out →
      out.map (fun rp => (rp.score, rp.post_id)) = pairs ∧
      (∀ i (hi : i < out.length), (out.get ⟨i, hi⟩).rank = r + i) ∧
      (∀ rp ∈ out, ∃ p, dictGet? posts rp.post_id = some p ∧
        rp = rankedOf now rp.rank rp.score rp.post_id p) := by
  intro pairs
  induction pairs with
  | nil =>
    intro r out hok
    have h0 : ([] : List RankedPost) = out := (Except.ok.injEq _ _).mp hok
    subst h0
    refine ⟨rfl, ?_, ?_⟩
    · intro i hi; simp at hi
    · intro rp hrp; simp at hrp
  | cons sp rest ih =>
    intro r out hok
    cases hp : dictGet? posts sp.2 with
    | none =>
      have hstep : buildRanked now posts r (sp :: rest) =
          Except.error PyErr.keyError := by
        show (match dictGet? posts sp.2 with
          | none => Except.error PyErr.keyError
          | some p => (buildRanked now posts (r + 1) rest).map
              (fun acc => rankedOf now r sp.1 sp.2 p :: acc)) =
          Except.error PyErr.keyError
        rw [hp]
      rw [hstep] at hok
      exact absurd hok (by simp)
    | some p =>
      have hstep : buildRanked now posts r (sp :: rest) =
          (buildRanked now posts (r + 1) rest).map
            (fun acc => rankedOf now r sp.1 sp.2 p :: acc) := by
        show (match dictGet? posts sp.2 with
          | none => Except.error PyErr.keyError
          | some q => (buildRanked now posts (r + 1) rest).map
              (fun acc => rankedOf now r sp.1 sp.2 q :: acc)) = _
        rw [hp]
      rw [hstep] at hok
      cases hrec : buildRanked now posts (r + 1) rest with
      | error e => rw [hrec, except_map_err] at hok; exact absurd hok (by simp)
      | ok acc =>
        rw [hrec, except_map_ok] at hok
        have h0 : rankedOf now r sp.1 sp.2 p :: acc = out :=
          (Except.ok.injEq _ _).mp hok
        subst h0
        obtain ⟨hmap, hrank, hmem⟩ := ih (r + 1) acc hrec
        refine ⟨?_, ?_, ?_⟩
        · simp only [List.map_cons, hmap]
          rfl
        · intro i hi
          cases i with
          | zero => rfl
          | succ j =>
            have hj : j < acc.length := by
              simpa using Nat.lt_of_succ_lt_succ (by simpa using hi)
            have hh := hrank j hj
            show (acc.get ⟨j, hj⟩).rank = r + (j + 1)
            rw [hh]
            omega
        · intro rp hrp
          rcases List.mem_cons.mp hrp with h | h
          · subst h
            exact ⟨p, hp, rfl⟩
          · exact hmem rp h

/-- The cache-consistency invariant of every reachable engine state: every
algorithm holding a cache timestamp also holds a cached ranking, and every
cached ranking is sorted descending (it was written as `sort_pairs_desc`
of some score list). Established for the initial state and preserved by
every operation by the `cacheWF_*` lemmas below. -/
def CacheWF (eng : RankingEngine) : Prop :=
  ∀ alg, (dictGet? eng.cache_timestamps alg).isSome = true →
    ∃ l, dictGet? eng.ranking_cache alg = some l ∧ List.Pairwise rankGe l

theorem cacheWF_newEngine : CacheWF newEngine := by
  intro alg h
  rw [show dictGet? newEngine.cache_timestamps alg = none from rfl] at h
  exact absurd h (by decide)

theorem cacheWF_invalidate (eng : RankingEngine) :
    CacheWF (invalidate_cache eng) := by
  intro alg h
  rw [show dictGet? (invalidate_cache eng).cache_timestamps alg = none
    from rfl] at h
  exact absurd h (by decide)

theorem cacheWF_add_post (now : ℚ) (eng : RankingEngine) (pid : String)
    (kw : PostKwargs) (eng' : RankingEngine)
    (hok : add_post now eng pid kw = .ok eng') : CacheWF eng' := by
  unfold add_post at hok
  by_cases hdup : (dictGet? eng.posts pid).isSome
  · rw [if_pos hdup] at hok
    exact absurd hok (by simp)
  · rw [if_neg hdup] at hok
    have he : invalidate_cache
        { eng with posts := dictSet eng.posts pid (mkPost now pid kw) } = eng' :=
      (Except.ok.injEq _ _).mp hok
    rw [← he]
    exact cacheWF_invalidate _

theorem cacheWF_update_post (eng : RankingEngine) (pid : String)
    (kw : PostKwargs) (eng' : RankingEngine)
    (hok : update_post eng pid kw = .ok eng') : CacheWF eng' := by
  unfold update_post at hok
  cases hp : dictGet? eng.posts pid with
  | none => rw [hp] at hok; exact absurd hok (by simp)
  | some post =>
    rw [hp] at hok
    have he : invalidate_cache
        { eng with
          posts := dictSet eng.posts pid (post_init (applyKwargs post kw)) } =
        eng' := (Except.ok.injEq _ _).mp hok
    rw [← he]
    exact cacheWF_invalidate _

theorem cacheWF_batch_add (now : ℚ) (eng : RankingEngine)
    (items : List (String × PostKwargs)) :
    CacheWF (batch_add_posts now eng items) :=
  cacheWF_invalidate _

theorem cacheWF_get_ranked (mlib : MathOracle) (now : ℚ) (eng : RankingEngine)
    (algorithm : String) (limit : Nat) (kw : ScoreKwargs)
    (hinv : CacheWF eng) (res : List RankedPost) (eng' : RankingEngine)
    (hok : get_ranked_posts mlib now eng algorithm limit kw = .ok (res, eng')) :
    CacheWF eng' := by
  unfold get_ranked_posts at hok
  by_cases hvalid : is_cache_valid now eng algorithm = true
  · rw [if_pos hvalid] at hok
    cases hb : buildRanked now eng.posts 1
        (((dictGet? eng.ranking_cache algorithm).getD []).take limit) with
    | error e => rw [hb, except_map_err] at hok; exact absurd hok (by simp)
    | ok out =>
      rw [hb, except_map_ok] at hok
      have hpair : (out, eng) = (res, eng') := (Except.ok.injEq _ _).mp hok
      have heng : eng = eng' := congrArg Prod.snd hpair
      rw [← heng]
      exact hinv
  · rw [if_neg hvalid] at hok
    cases hsc : calculate_scores mlib now eng algorithm kw with
    | error e => rw [hsc] at hok; exact absurd hok (by simp)
    | ok scores =>
      rw [hsc] at hok
      cases hb : buildRanked now eng.posts 1
          ((sort_pairs_desc scores).take limit) with
      | error e =>
        simp only [hb, except_map_err] at hok
        exact absurd hok (by simp)
      | ok out =>
        simp only [hb, except_map_ok] at hok
        have hpair : (out,
            ({ eng with
              ranking_cache :=
                dictSet eng.ranking_cache algorithm (sort_pairs_desc scores)
              cache_timestamps :=
                dictSet eng.cache_timestamps algorithm now } : RankingEngine)) =
            (res, eng') := (Except.ok.injEq _ _).mp hok
        have heng : ({ eng with
            ranking_cache :=
              dictSet eng.ranking_cache algorithm (sort_pairs_desc scores)
            cache_timestamps :=
              dictSet eng.cache_timestamps algorithm now } : RankingEngine) =
            eng' := congrArg Prod.snd hpair
        rw [← heng]
        intro alg h
        have h' : (dictGet? (dictSet eng.cache_timestamps algorithm now)
            alg).isSome = true := h
        show ∃ l, dictGet?
            (dictSet eng.ranking_cache algorithm (sort_pairs_desc scores)) alg =
            some l ∧ List.Pairwise rankGe l
        by_cases halg : alg = algorithm
        · subst halg
          exact ⟨sort_pairs_desc scores, dictGet?_dictSet_self _ _ _,
            sort_pairs_desc_sorted scores⟩
        · rw [dictGet?_dictSet_ne _ _ _ _ halg] at h'
          obtain ⟨l, hl, hsort⟩ := hinv alg h'
          exact ⟨l, by rw [dictGet?_dictSet_ne _ _ _ _ halg]; exact hl, hsort⟩

theorem ranked_rows_shape (now : ℚ) (posts : List (String × Post))
    (full : List (ℚ × String)) (limit : Nat) (res : List RankedPost)
    (hfull : List.Pairwise rankGe full)
    (hb : buildRanked now posts 1 (full.take limit) = .ok res) :
    res.length ≤ limit ∧
    List.Chain' (fun a b => b.score ≤ a.score) res ∧
    (∀ i (hi : i < res.length), (res.get ⟨i, hi⟩).rank = i + 1) ∧
    res.map (fun rp => (rp.score, rp.post_id)) = full.take limit ∧
    (∀ rp ∈ res, ∃ p, dictGet? posts rp.post_id = some p ∧
      rp.likes = p.likes ∧ rp.comments = p.comments ∧ rp.shares = p.shares ∧
      rp.upvotes = p.upvotes ∧ rp.downvotes = p.downvotes ∧
      rp.timestamp = p.timestamp ∧ rp.age_hours = (now - p.timestamp) / 3600) := by
  obtain ⟨hmap, hrank, hmem⟩ := buildRanked_ok_spec now posts (full.take limit) 1 res hb
  have hsorted : List.Pairwise rankGe (full.take limit) :=
    hfull.sublist (List.take_sublist limit full)
  refine ⟨?_, ?_, ?_, hmap, ?_⟩
  · have hlen := congrArg List.length hmap
    simp only [List.length_map] at hlen
    rw [hlen, List.length_take]
    exact Nat.min_le_left _ _
  · have hpw : List.Pairwise
        (fun a b : RankedPost => rankGe (a.score, a.post_id) (b.score, b.post_id))
        res := by
      rw [← hmap] at hsorted
      exact List.pairwise_map.mp hsorted
    refine List.Pairwise.chain' (hpw.imp ?_)
    intro a b hab
    rcases hab with h | ⟨h, _⟩
    · exact le_of_lt h
    · exact le_of_eq h.symm
  · intro i hi
    rw [hrank i hi]
    omega
  · intro rp hrp
    obtain ⟨p, hp, hrfl⟩ := hmem rp hrp
    refine ⟨p, hp, ?_, ?_, ?_, ?_, ?_, ?_, ?_⟩ <;> rw [hrfl] <;> rfl

/-- C7: in every engine state satisfying the cache invariant `CacheWF`
(which holds initially and is preserved by every operation - the
`cacheWF_*` lemmas - so it holds in every reachable store state), every
successful `get_ranked_posts` call, whether served from a valid cache
entry or freshly computed, returns at most `limit` rows, sorted descending
by score, ranked 1-based in order, equal to the front of the full
descending ranking the call serves from (the cached ranking on a hit, the
descending sort of the freshly computed scores on a miss), each row
annotated with the stored post's current field values and its age computed
from the current time. -/
theorem c7_get_ranked_shape (mlib : MathOracle) (now : ℚ)
    (eng : RankingEngine) (algorithm : String) (limit : Nat) (kw : ScoreKwargs)
    (hinv : CacheWF eng) (res : List RankedPost) (eng' : RankingEngine)
    (hok : get_ranked_posts mlib now eng algorithm limit kw = .ok (res, eng')) :
    res.length ≤ limit ∧
    List.Chain' (fun a b => b.score ≤ a.score) res ∧
    (∀ i (hi : i < res.length), (res.get ⟨i, hi⟩).rank = i + 1) ∧
    (∃ full, List.Pairwise rankGe full ∧
      res.map (fun rp => (rp.score, rp.post_id)) = full.take limit ∧
      ((is_cache_valid now eng algorithm = true ∧
          dictGet? eng.ranking_cache algorithm = some full) ∨
        (is_cache_valid now eng algorithm = false ∧
          ∃ scores, calculate_scores mlib now eng algorithm kw = .ok scores ∧
            full = sort_pairs_desc scores))) ∧
    (∀ rp ∈ res, ∃ p, dictGet? eng.posts rp.post_id = some p ∧
      rp.likes = p.likes ∧ rp.comments = p.comments ∧ rp.shares = p.shares ∧
      rp.upvotes = p.upvotes ∧ rp.downvotes = p.downvotes ∧
      rp.timestamp = p.timestamp ∧ rp.age_hours = (now - p.timestamp) / 3600) := by
  unfold get_ranked_posts at hok
  by_cases hvalid : is_cache_valid now eng algorithm = true
  · rw [if_pos hvalid] at hok
    have hts : (dictGet? eng.cache_timestamps algorithm).isSome = true := by
      unfold is_cache_valid at hvalid
      cases hx : dictGet? eng.cache_timestamps algorithm with
      | none => simp only [hx] at hvalid; exact absurd hvalid (by decide)
      | some ts => rfl
    obtain ⟨l, hl, hlsort⟩ := hinv algorithm hts
    rw [hl, show (some l).getD ([] : List (ℚ × String)) = l from rfl] at hok
    cases hb : buildRanked now eng.posts 1 (l.take limit) with
    | error e => rw [hb, except_map_err] at hok; exact absurd hok (by simp)
    | ok out =>
      rw [hb, except_map_ok] at hok
      have hpair : (out, eng) = (res, eng') := (Except.ok.injEq _ _).mp hok
      have hres : out = res := congrArg Prod.fst hpair
      subst hres
      obtain ⟨h1, h2, h3, h4, h5⟩ :=
        ranked_rows_shape now eng.posts l limit out hlsort hb
      exact ⟨h1, h2, h3, ⟨l, hlsort, h4, Or.inl ⟨hvalid, hl⟩⟩, h5⟩
  · have hvf : is_cache_valid now eng algorithm = false := by
      cases hx : is_cache_valid now eng algorithm
      · rfl
      · exact absurd hx hvalid
    rw [if_neg hvalid] at hok
    cases hsc : calculate_scores mlib now eng algorithm kw with
    | error e => rw [hsc] at hok; exact absurd hok (by simp)
    | ok scores =>
      rw [hsc] at hok
      cases hb : buildRanked now eng.posts 1
          ((sort_pairs_desc scores).take limit) with
      | error e =>
        simp only [hb, except_map_err] at hok
        exact absurd hok (by simp)
      | ok out =>
        simp only [hb, except_map_ok] at hok
        have hpair : (out, _) = (res, eng') := (Except.ok.injEq _ _).mp hok
        have hres : out = res := congrArg Prod.fst hpair
        subst hres
        obtain ⟨h1, h2, h3, h4, h5⟩ := ranked_rows_shape now eng.posts
          (sort_pairs_desc scores) limit out (sort_pairs_desc_sorted scores) hb
        exact ⟨h1, h2, h3, ⟨sort_pairs_desc scores,
          sort_pairs_desc_sorted scores, h4, Or.inr ⟨hvf, scores, rfl, rfl⟩⟩, h5⟩

/-- The engagement score of `engineA`'s single post at time 0. -/
def scoreA : ℚ := engagement_score 0 (mkPost 100 "a" noKwargs)

/-- The ranking rows `get_ranked_posts` produces for `engineA`. -/
def resA : List RankedPost := [rankedOf 0 1 scoreA "a" (mkPost 100 "a" noKwargs)]

/-- The engine state after `get_ranked_posts` caches the fresh ranking. -/
def engACached : RankingEngine :=
  { engineA with ranking_cache := [("engagement_score", [(scoreA, "a")])],
                 cache_timestamps := [("engagement_score", 0)] }

theorem c7_get_ranked_shape_witness :
    CacheWF engineA ∧
    get_ranked_posts oracle0 0 engineA "engagement_score" 5 noScoreKwargs =
      .ok (resA, engACached) ∧
    (resA.length ≤ 5 ∧
      List.Chain' (fun a b => b.score ≤ a.score) resA ∧
      (∀ i (hi : i < resA.length), (resA.get ⟨i, hi⟩).rank = i + 1) ∧
      (∃ full, List.Pairwise rankGe full ∧
        resA.map (fun rp => (rp.score, rp.post_id)) = full.take 5 ∧
        ((is_cache_valid 0 engineA "engagement_score" = true ∧
            dictGet? engineA.ranking_cache "engagement_score" = some full) ∨
          (is_cache_valid 0 engineA "engagement_score" = false ∧
            ∃ scores, calculate_scores oracle0 0 engineA "engagement_score"
                noScoreKwargs = .ok scores ∧
              full = sort_pairs_desc scores))) ∧
      (∀ rp ∈ resA, ∃ p, dictGet? engineA.posts rp.post_id = some p ∧
        rp.likes = p.likes ∧ rp.comments = p.comments ∧ rp.shares = p.shares ∧
        rp.upvotes = p.upvotes ∧ rp.downvotes = p.downvotes ∧
        rp.timestamp = p.timestamp ∧
        rp.age_hours = (0 - p.timestamp) / 3600)) := by
  have hcwf : CacheWF engineA := by
    intro alg h
    rw [show dictGet? engineA.cache_timestamps alg = none from rfl] at h
    exact absurd h (by decide)
  exact ⟨hcwf, by rfl,
    c7_get_ranked_shape oracle0 0 engineA "engagement_score" 5 noScoreKwargs
      hcwf resA engACached (by rfl)⟩

/-! ## Heap index and array-update lemmas (claims C1, C2) -/

/-- All entry scores are pairwise distinct. -/
def NodupScores (l : List Entry) : Prop := (l.map escore).Nodup

instance : DecidablePred NodupScores := fun l => by
  unfold NodupScores
  infer_instance

theorem getD_set_self {α : Type} (d a : α) :
    ∀ (l : List α) (i : Nat), i < l.length → (l.set i a).getD i d = a := by
  intro l
  induction l with
  | nil => intro i hi; simp at hi
  | cons x t ih =>
    intro i hi
    cases i with
    | zero => rfl
    | succ j =>
      rw [List.set_cons_succ, List.getD_cons_succ]
      exact ih j (by simpa using Nat.lt_of_succ_lt_succ hi)

theorem getD_set_ne {α : Type} (d a : α) :
    ∀ (l : List α) (i j : Nat), i ≠ j → (l.set i a).getD j d = l.getD j d := by
  intro l
  induction l with
  | nil => intro i j hij; rfl
  | cons x t ih =>
    intro i j hij
    cases i with
    | zero =>
      cases j with
      | zero => exact absurd rfl hij
      | succ k => rfl
    | succ i' =>
      cases j with
      | zero => rfl
      | succ k =>
        rw [List.set_cons_succ, List.getD_cons_succ, List.getD_cons_succ]
        exact ih i' k (fun hc => hij (by rw [hc]))

theorem getD_append_left {α : Type} (d : α) :
    ∀ (l t : List α) (i : Nat), i < l.length → (l ++ t).getD i d = l.getD i d := by
  intro l
  induction l with
  | nil => intro t i hi; simp at hi
  | cons x r ih =>
    intro t i hi
    cases i with
    | zero => rfl
    | succ j =>
      rw [List.cons_append, List.getD_cons_succ, List.getD_cons_succ]
      exact ih t j (by simpa using Nat.lt_of_succ_lt_succ hi)

theorem hget_set_self (h : List Entry) (i : Nat) (a : Entry) (hi : i < h.length) :
    hget (h.set i a) i = a :=
  getD_set_self dEntry a h i hi

theorem hget_set_ne (h : List Entry) {i j : Nat} (a : Entry) (hij : i ≠ j) :
    hget (h.set i a) j = hget h j :=
  getD_set_ne dEntry a h i j hij

theorem set_append_last {α : Type} (a b : α) :
    ∀ l : List α, (l ++ [a]).set l.length b = l ++ [b] := by
  intro l
  induction l with
  | nil => rfl
  | cons x t ih => simp [List.cons_append, ih]

theorem par_lt {j : Nat} (hj : 0 < j) : par j < j := by
  unfold par
  omega

theorem par_eq_iff {c p : Nat} (hc : 0 < c) :
    par c = p ↔ (c = 2 * p + 1 ∨ c = 2 * p + 2) := by
  unfold par
  omega

/-- The binary min-heap property on scores over the array encoding. -/
def IsHeap (h : List Entry) : Prop :=
  ∀ j, 0 < j → j < h.length → escore (hget h (par j)) ≤ escore (hget h j)

/-- Heap property away from a hole at `pos` (the sift-down invariant,
first part). -/
def HInv1 (H : List Entry) (pos : Nat) : Prop :=
  ∀ j, 0 < j → j < H.length → j ≠ pos → escore (hget H (par j)) ≤ escore (hget H j)

/-- The hole's parent bounds the hole's children (the sift invariant,
second part). -/
def HInv2 (H : List Entry) (pos : Nat) : Prop :=
  0 < pos → ∀ c, 0 < c → c < H.length → par c = pos →
    escore (hget H (par pos)) ≤ escore (hget H c)

/-- Heap property on edges avoiding the hole entirely (the sift-up walk
invariant). -/
def WInv1 (H : List Entry) (pos : Nat) : Prop :=
  ∀ j, 0 < j → j < H.length → j ≠ pos → par j ≠ pos →
    escore (hget H (par j)) ≤ escore (hget H j)

theorem nodupScores_ne {h : List Entry} (hn : NodupScores h) {i j : Nat}
    (hi : i < h.length) (hj : j < h.length) (hij : i ≠ j) :
    escore (hget h i) ≠ escore (hget h j) := by
  intro hc
  have hmi : i < (h.map escore).length := by simpa using hi
  have hmj : j < (h.map escore).length := by simpa using hj
  have h1 : (h.map escore).get ⟨i, hmi⟩ = escore (hget h i) := by
    rw [List.get_map]
    congr 1
    exact (List.getD_eq_getElem h dEntry hi).symm
  have h2 : (h.map escore).get ⟨j, hmj⟩ = escore (hget h j) := by
    rw [List.get_map]
    congr 1
    exact (List.getD_eq_getElem h dEntry hj).symm
  have := hn.get_inj_iff.mp (h1.trans (hc.trans h2.symm))
  exact hij (by simpa using this)

theorem entryLt_of_ne {a b : Entry} (hne : escore a ≠ escore b) :
    entryLt a b = .ok (decide (escore a < escore b)) := by
  unfold entryLt
  rw [if_neg (show ¬ a.1 = b.1 from hne)]
  rfl

theorem cons_set_perm {α : Type} (d : α) :
    ∀ (t : List α) (k : Nat) (x : α), k < t.length →
      ((t.getD k d) :: t.set k x).Perm (x :: t) := by
  intro t
  induction t with
  | nil => intro k x hk; simp at hk
  | cons y t2 ih =>
    intro k x hk
    cases k with
    | zero => exact List.Perm.swap x y t2
    | succ m =>
      have hm : m < t2.length := by simpa using Nat.lt_of_succ_lt_succ hk
      have h1 : ((y :: t2).getD (m + 1) d :: (y :: t2).set (m + 1) x) =
          t2.getD m d :: y :: t2.set m x := rfl
      rw [h1]
      exact (List.Perm.swap y (t2.getD m d) (t2.set m x)).trans
        (((ih m x hm).cons y).trans (List.Perm.swap x y t2))

theorem set_self_getD {α : Type} (d : α) :
    ∀ (l : List α) (i : Nat), i < l.length → l.set i (l.getD i d) = l := by
  intro l
  induction l with
  | nil => intro i hi; rfl
  | cons x t ih =>
    intro i hi
    cases i with
    | zero => rfl
    | succ j =>
      rw [List.getD_cons_succ, List.set_cons_succ,
        ih j (by simpa using Nat.lt_of_succ_lt_succ hi)]

theorem set_swap_perm {α : Type} (d : α) :
    ∀ (l : List α) (i j : Nat), i < l.length → j < l.length →
      ((l.set i (l.getD j d)).set j (l.getD i d)).Perm l := by
  have haux : ∀ (l : List α) (i j : Nat), i < j → i < l.length → j < l.length →
      ((l.set i (l.getD j d)).set j (l.getD i d)).Perm l := by
    intro l
    induction l with
    | nil => intro i j hij hi hj; simp at hi
    | cons x t ih =>
      intro i j hij hi hj
      cases i with
      | zero =>
        obtain ⟨k, hk⟩ : ∃ k, j = k + 1 := ⟨j - 1, by omega⟩
        subst hk
        have hkt : k < t.length := by simpa using Nat.lt_of_succ_lt_succ hj
        have h1 : ((x :: t).set 0 ((x :: t).getD (k + 1) d)).set (k + 1)
            ((x :: t).getD 0 d) = t.getD k d :: t.set k x := rfl
        rw [h1]
        exact cons_set_perm d t k x hkt
      | succ i' =>
        obtain ⟨k, hk⟩ : ∃ k, j = k + 1 := ⟨j - 1, by omega⟩
        subst hk
        have hit : i' < t.length := by simpa using Nat.lt_of_succ_lt_succ hi
        have hkt : k < t.length := by simpa using Nat.lt_of_succ_lt_succ hj
        have : ((x :: t).set (i' + 1) ((x :: t).getD (k + 1) d)).set (k + 1)
            ((x :: t).getD (i' + 1) d) =
            x :: ((t.set i' (t.getD k d)).set k (t.getD i' d)) := rfl
        rw [this]
        exact (ih i' k (by omega) hit hkt).cons x
  intro l i j hi hj
  rcases Nat.lt_trichotomy i j with h | h | h
  · exact haux l i j h hi hj
  · subst h
    rw [List.set_set, set_self_getD d l i hi]
  · rw [List.set_comm _ _ _ (by omega)]
    exact haux l j i h hj hi

theorem isHeap_root_le {h : List Entry} (hh : IsHeap h) :
    ∀ j, j < h.length → escore (hget h 0) ≤ escore (hget h j) := by
  intro j
  induction j using Nat.strong_induction_on with
  | _ j ih =>
    intro hj
    cases Nat.eq_zero_or_pos j with
    | inl h0 => subst h0; exact le_refl _
    | inr hpos =>
      have hpar := ih (par j) (par_lt hpos) ((par_lt hpos).trans hj)
      exact hpar.trans (hh j hpos hj)

theorem set_swap_perm_entry (l : List Entry) (i j : Nat) (hi : i < l.length)
    (hj : j < l.length) : ((l.set i (hget l j)).set j (hget l i)).Perm l :=
  set_swap_perm dEntry l i j hi hj

theorem siftdown_step_inv (heap : List Entry) (pos : Nat) (newitem : Entry)
    (hpos : pos < heap.length) (h0 : 0 < pos)
    (hlt : escore newitem < escore (hget heap (par pos)))
    (h1 : HInv1 (heap.set pos newitem) pos)
    (h2 : HInv2 (heap.set pos newitem) pos) :
    HInv1 ((heap.set pos (hget heap (par pos))).set (par pos) newitem) (par pos) ∧
    HInv2 ((heap.set pos (hget heap (par pos))).set (par pos) newitem) (par pos) := by
  have hqpos : par pos < pos := par_lt h0
  have hqlen : par pos < heap.length := hqpos.trans hpos
  have hqne : par pos ≠ pos := Nat.ne_of_lt hqpos
  have hH'q : hget ((heap.set pos (hget heap (par pos))).set (par pos) newitem)
      (par pos) = newitem :=
    hget_set_self _ _ _ (by simpa using hqlen)
  have hH'pos : hget ((heap.set pos (hget heap (par pos))).set (par pos) newitem)
      pos = hget heap (par pos) := by
    rw [hget_set_ne (heap.set pos (hget heap (par pos))) newitem hqne]
    exact hget_set_self heap pos _ hpos
  have hH'other : ∀ j, j ≠ par pos → j ≠ pos →
      hget ((heap.set pos (hget heap (par pos))).set (par pos) newitem) j =
        hget heap j := by
    intro j hjq hjp
    rw [hget_set_ne (heap.set pos (hget heap (par pos))) newitem
        (fun hc => hjq hc.symm),
      hget_set_ne heap (hget heap (par pos)) (fun hc => hjp hc.symm)]
  have hHother : ∀ j, j ≠ pos → hget (heap.set pos newitem) j = hget heap j :=
    fun j hjp => hget_set_ne heap newitem (fun hc => hjp hc.symm)
  constructor
  · intro j hj0 hjlen hjq
    have hjheap : j < heap.length := by simpa using hjlen
    by_cases hjp : j = pos
    · subst hjp
      rw [hH'q, hH'pos]
      exact le_of_lt hlt
    · rw [hH'other j hjq hjp]
      by_cases hpj : par j = par pos
      · rw [hpj, hH'q]
        have hb := h1 j hj0 (by simpa using hjheap) hjp
        rw [hHother j hjp, hpj, hHother (par pos) hqne] at hb
        exact (le_of_lt hlt).trans hb
      · by_cases hpj2 : par j = pos
        · rw [hpj2, hH'pos]
          have hb := h2 h0 j hj0 (by simpa using hjheap) hpj2
          rw [hHother j hjp, hHother (par pos) hqne] at hb
          exact hb
        · rw [hH'other (par j) hpj hpj2]
          have hb := h1 j hj0 (by simpa using hjheap) hjp
          rw [hHother j hjp, hHother (par j) hpj2] at hb
          exact hb
  · intro hq0 c hc0 hclen hpc
    have hcheap : c < heap.length := by simpa using hclen
    have hpq_lt : par (par pos) < par pos := par_lt hq0
    have hppq : par (par pos) ≠ par pos := Nat.ne_of_lt hpq_lt
    have hppp : par (par pos) ≠ pos := Nat.ne_of_lt (hpq_lt.trans hqpos)
    rw [hH'other (par (par pos)) hppq hppp]
    have hbq := h1 (par pos) hq0 (by simpa using hqlen) hqne
    rw [hHother (par pos) hqne, hHother (par (par pos)) hppp] at hbq
    by_cases hcp : c = pos
    · subst hcp
      rw [hH'pos]
      exact hbq
    · have hcq : c ≠ par pos := by
        intro hc
        rw [hc] at hpc
        exact absurd hpc (Nat.ne_of_lt (par_lt hq0))
      rw [hH'other c hcq hcp]
      have hbc := h1 c hc0 (by simpa using hcheap) hcp
      rw [hHother c hcp, hpc, hHother (par pos) hqne] at hbc
      exact hbq.trans hbc

theorem siftdown_spec : ∀ (pos : Nat) (heap : List Entry) (newitem : Entry),
    pos < heap.length →
    HInv1 (heap.set pos newitem) pos →
    HInv2 (heap.set pos newitem) pos →
    NodupScores (heap.set pos newitem) →
    ∃ h', siftdown heap 0 pos newitem = .ok h' ∧
      h'.Perm (heap.set pos newitem) ∧ IsHeap h' := by
  intro pos
  induction pos using Nat.strong_induction_on with
  | _ pos ih =>
    intro heap newitem hpos h1 h2 hn
    by_cases h0 : 0 < pos
    · have hqpos : par pos < pos := par_lt h0
      have hqlen : par pos < heap.length := hqpos.trans hpos
      have hqne : par pos ≠ pos := Nat.ne_of_lt hqpos
      have hppar : (pos - 1) / 2 = par pos := rfl
      have hv1 : hget (heap.set pos newitem) (par pos) = hget heap (par pos) :=
        hget_set_ne heap newitem (fun hc => hqne hc.symm)
      have hv2 : hget (heap.set pos newitem) pos = newitem :=
        hget_set_self heap pos newitem hpos
      have hne : escore newitem ≠ escore (hget heap (par pos)) := by
        have hx := nodupScores_ne hn (i := pos) (j := par pos)
          (by simpa using hpos) (by simpa using hqlen) (fun hc => hqne hc.symm)
        rw [hv1, hv2] at hx
        exact hx
      rw [siftdown, dif_pos h0]
      simp only [hppar]
      rw [entryLt_of_ne hne]
      by_cases hcmp : escore newitem < escore (hget heap (par pos))
      · rw [decide_eq_true hcmp]
        have hswap : ((heap.set pos (hget heap (par pos))).set (par pos) newitem).Perm
            (heap.set pos newitem) := by
          have hperm0 := set_swap_perm_entry (heap.set pos newitem) pos (par pos)
            (by simpa using hpos) (by simpa using hqlen)
          rw [hv1, hv2, List.set_set] at hperm0
          exact hperm0
        obtain ⟨hinv1, hinv2⟩ := siftdown_step_inv heap pos newitem hpos h0 hcmp h1 h2
        obtain ⟨h', hok, hperm, hheap⟩ := ih (par pos) hqpos
          (heap.set pos (hget heap (par pos))) newitem
          (by simpa using hqlen) hinv1 hinv2
          (by
            unfold NodupScores
            rw [List.Perm.nodup_iff (hswap.map escore)]
            exact hn)
        exact ⟨h', hok, hperm.trans hswap, hheap⟩
      · rw [decide_eq_false hcmp]
        refine ⟨heap.set pos newitem, rfl, List.Perm.refl _, ?_⟩
        intro j hj0 hjlen
        by_cases hjp : j = pos
        · subst hjp
          rw [hv1, hv2]
          exact not_lt.mp hcmp
        · exact h1 j hj0 hjlen hjp
    · rw [siftdown, dif_neg h0]
      refine ⟨heap.set pos newitem, rfl, List.Perm.refl _, ?_⟩
      intro j hj0 hjlen
      have hjp : j ≠ pos := by omega
      exact h1 j hj0 hjlen hjp

theorem siftup_step_inv (heap : List Entry) (pos cp : Nat) (newitem : Entry)
    (hpos : pos < heap.length) (hcplen : cp < heap.length) (hpc : pos < cp)
    (hchild : par cp = pos)
    (hmin : ∀ s, 0 < s → s < heap.length → par s = pos → s ≠ cp →
      escore (hget heap cp) ≤ escore (hget heap s))
    (h1 : WInv1 (heap.set pos newitem) pos)
    (h2 : HInv2 (heap.set pos newitem) pos) :
    WInv1 ((heap.set pos (hget heap cp)).set cp newitem) cp ∧
    HInv2 ((heap.set pos (hget heap cp)).set cp newitem) cp := by
  have hcpne : cp ≠ pos := Nat.ne_of_gt hpc
  have hH'cp : hget ((heap.set pos (hget heap cp)).set cp newitem) cp = newitem :=
    hget_set_self _ _ _ (by simpa using hcplen)
  have hH'pos : hget ((heap.set pos (hget heap cp)).set cp newitem) pos =
      hget heap cp := by
    rw [hget_set_ne (heap.set pos (hget heap cp)) newitem hcpne]
    exact hget_set_self heap pos _ hpos
  have hH'other : ∀ j, j ≠ cp → j ≠ pos →
      hget ((heap.set pos (hget heap cp)).set cp newitem) j = hget heap j := by
    intro j hjc hjp
    rw [hget_set_ne (heap.set pos (hget heap cp)) newitem (fun hc => hjc hc.symm),
      hget_set_ne heap (hget heap cp) (fun hc => hjp hc.symm)]
  have hHother : ∀ j, j ≠ pos → hget (heap.set pos newitem) j = hget heap j :=
    fun j hjp => hget_set_ne heap newitem (fun hc => hjp hc.symm)
  constructor
  · intro j hj0 hjlen hjcp hpjcp
    have hjheap : j < heap.length := by simpa using hjlen
    by_cases hjp : j = pos
    · subst hjp
      have hppj : par j < j := par_lt hj0
      have hppne : par j ≠ j := Nat.ne_of_lt hppj
      have hppcp : par j ≠ cp := Nat.ne_of_lt (hppj.trans hpc)
      rw [hH'other (par j) hppcp hppne, hH'pos]
      have hb := h2 hj0 cp (by omega) (by simpa using hcplen) hchild
      rw [hHother (par j) hppne, hHother cp hcpne] at hb
      exact hb
    · by_cases hpj : par j = pos
      · rw [hpj, hH'pos, hH'other j hjcp hjp]
        exact hmin j hj0 hjheap hpj hjcp
      · rw [hH'other j hjcp hjp, hH'other (par j) hpjcp hpj]
        have hb := h1 j hj0 (by simpa using hjheap) hjp hpj
        rw [hHother j hjp, hHother (par j) hpj] at hb
        exact hb
  · intro hcp0 gc hgc0 hgclen hpgc
    have hgcheap : gc < heap.length := by simpa using hgclen
    have hgccp : cp < gc := hpgc ▸ par_lt hgc0
    have hgcne : gc ≠ cp := Nat.ne_of_gt hgccp
    have hgcpos : gc ≠ pos := Nat.ne_of_gt (hpc.trans hgccp)
    rw [hchild, hH'pos, hH'other gc hgcne hgcpos]
    have hb := h1 gc hgc0 (by simpa using hgcheap) hgcpos
      (by rw [hpgc]; exact Nat.ne_of_gt hpc)
    rw [hHother gc hgcpos, hpgc, hHother cp hcpne] at hb
    exact hb

theorem siftup_spec : ∀ (n : Nat) (heap : List Entry) (pos : Nat) (newitem : Entry),
    heap.length ≤ pos + n →
    pos < heap.length →
    WInv1 (heap.set pos newitem) pos →
    HInv2 (heap.set pos newitem) pos →
    NodupScores (heap.set pos newitem) →
    ∃ h', siftup heap 0 pos newitem = .ok h' ∧
      h'.Perm (heap.set pos newitem) ∧ IsHeap h' := by
  intro n
  induction n with
  | zero => intro heap pos newitem hfuel hpos; omega
  | succ n ih =>
    intro heap pos newitem hfuel hpos h1 h2 hn
    have hHother : ∀ j, j ≠ pos → hget (heap.set pos newitem) j = hget heap j :=
      fun j hjp => hget_set_ne heap newitem (fun hc => hjp hc.symm)
    have hrec : ∀ cp, pos < cp → cp < heap.length → par cp = pos →
        (∀ s, 0 < s → s < heap.length → par s = pos → s ≠ cp →
          escore (hget heap cp) ≤ escore (hget heap s)) →
        ∃ h', siftup (heap.set pos (hget heap cp)) 0 cp newitem = .ok h' ∧
          h'.Perm (heap.set pos newitem) ∧ IsHeap h' := by
      intro cp hpccp hcplen hpar hmin
      obtain ⟨hinv1, hinv2⟩ :=
        siftup_step_inv heap pos cp newitem hpos hcplen hpccp hpar hmin h1 h2
      have hv1 : hget (heap.set pos newitem) cp = hget heap cp :=
        hHother cp (Nat.ne_of_gt hpccp)
      have hv2 : hget (heap.set pos newitem) pos = newitem :=
        hget_set_self heap pos newitem hpos
      have hperm0 := set_swap_perm_entry (heap.set pos newitem) pos cp
        (by simpa using hpos) (by simpa using hcplen)
      rw [hv1, hv2, List.set_set] at hperm0
      obtain ⟨h', hok, hperm, hh⟩ := ih (heap.set pos (hget heap cp)) cp newitem
        (by simp only [List.length_set]; omega) (by simpa using hcplen) hinv1 hinv2
        (by
          unfold NodupScores
          rw [List.Perm.nodup_iff (hperm0.map escore)]
          exact hn)
      exact ⟨h', hok, hperm.trans hperm0, hh⟩
    rw [siftup]
    by_cases hleft : 2 * pos + 1 < heap.length
    · rw [dif_pos hleft]
      have hchildpar : par (2 * pos + 1) = pos := by
        rw [par_eq_iff (by omega)]
        exact Or.inl rfl
      have hrightpar : par (2 * pos + 2) = pos := by
        rw [par_eq_iff (by omega)]
        exact Or.inr rfl
      by_cases hright : 2 * pos + 1 + 1 < heap.length
      · rw [dif_pos hright]
        have hlr : (2 : Nat) * pos + 1 + 1 = 2 * pos + 2 := by omega
        have hne_cr : escore (hget heap (2 * pos + 1)) ≠
            escore (hget heap (2 * pos + 1 + 1)) := by
          have hx := nodupScores_ne hn (i := 2 * pos + 1) (j := 2 * pos + 1 + 1)
            (by simpa using hleft) (by simpa using hright) (by omega)
          rw [hHother (2 * pos + 1) (by omega),
            hHother (2 * pos + 1 + 1) (by omega)] at hx
          exact hx
        rw [entryLt_of_ne hne_cr]
        by_cases hcmp : escore (hget heap (2 * pos + 1)) <
            escore (hget heap (2 * pos + 1 + 1))
        · rw [decide_eq_true hcmp]
          refine hrec (2 * pos + 1) (by omega) hleft hchildpar ?_
          intro s hs0 hslen hspar hscp
          have : s = 2 * pos + 2 := by
            rcases (par_eq_iff hs0).mp hspar with h | h
            · exact absurd h hscp
            · exact h
          subst this
          rw [← hlr]
          exact le_of_lt hcmp
        · rw [decide_eq_false hcmp]
          have hrl : escore (hget heap (2 * pos + 1 + 1)) <
              escore (hget heap (2 * pos + 1)) :=
            lt_of_le_of_ne (not_lt.mp hcmp) (fun hc => hne_cr hc.symm)
          refine hrec (2 * pos + 1 + 1) (by omega) hright (by rw [hlr]; exact hrightpar) ?_
          intro s hs0 hslen hspar hscp
          have : s = 2 * pos + 1 := by
            rcases (par_eq_iff hs0).mp hspar with h | h
            · exact h
            · omega
          subst this
          exact le_of_lt hrl
      · rw [dif_neg hright]
        refine hrec (2 * pos + 1) (by omega) hleft hchildpar ?_
        intro s hs0 hslen hspar hscp
        have : s = 2 * pos + 2 := by
          rcases (par_eq_iff hs0).mp hspar with h | h
          · exact absurd h hscp
          · exact h
        omega
    · rw [dif_neg hleft]
      have hinv1 : HInv1 (heap.set pos newitem) pos := by
        intro j hj0 hjlen hjp
        by_cases hpj : par j = pos
        · have : j = 2 * pos + 1 ∨ j = 2 * pos + 2 := (par_eq_iff hj0).mp hpj
          have hjheap : j < heap.length := by simpa using hjlen
          omega
        · exact h1 j hj0 hjlen hjp hpj
      exact siftdown_spec pos heap newitem hpos hinv1 h2 hn

theorem heappush_spec (heap : List Entry) (item : Entry) (hh : IsHeap heap)
    (hn : NodupScores (heap ++ [item])) :
    ∃ h', heappush heap item = .ok h' ∧ h'.Perm (item :: heap) ∧ IsHeap h' := by
  have hset : (heap ++ [item]).set heap.length item = heap ++ [item] :=
    set_append_last item item heap
  have hlen : heap.length < (heap ++ [item]).length := by simp
  have hgapp : ∀ k, k < heap.length → hget (heap ++ [item]) k = hget heap k :=
    fun k hk => getD_append_left dEntry heap [item] k hk
  have hinv1 : HInv1 ((heap ++ [item]).set heap.length item) heap.length := by
    rw [hset]
    intro j hj0 hjlen hjp
    have hjlt : j < heap.length := by
      simp only [List.length_append, List.length_singleton] at hjlen
      omega
    have hparlt : par j < heap.length := (par_lt hj0).trans hjlt
    rw [hgapp j hjlt, hgapp (par j) hparlt]
    exact hh j hj0 hjlt
  have hinv2 : HInv2 ((heap ++ [item]).set heap.length item) heap.length := by
    rw [hset]
    intro h0 c hc0 hclen hpc
    have : c = 2 * heap.length + 1 ∨ c = 2 * heap.length + 2 :=
      (par_eq_iff hc0).mp hpc
    simp only [List.length_append, List.length_singleton] at hclen
    omega
  obtain ⟨h', hok, hperm, hheap⟩ := siftdown_spec heap.length (heap ++ [item])
    item hlen hinv1 hinv2 (by rw [hset]; exact hn)
  refine ⟨h', hok, ?_, hheap⟩
  rw [hset] at hperm
  exact hperm.trans (List.perm_append_singleton item heap)

theorem heappushpop_spec (heap : List Entry) (item : Entry) (hh : IsHeap heap)
    (hn : NodupScores (item :: heap)) :
    (heap = [] ∧ heappushpop heap item = .ok (item, [])) ∨
    (∃ h0 rest, heap = h0 :: rest ∧
      ((escore item < escore h0 ∧ heappushpop heap item = .ok (item, heap)) ∨
       (escore h0 < escore item ∧
        ∃ h', heappushpop heap item = .ok (h0, h') ∧
          h'.Perm (item :: rest) ∧ IsHeap h'))) := by
  cases heap with
  | nil => exact Or.inl ⟨rfl, rfl⟩
  | cons h0 rest =>
    refine Or.inr ⟨h0, rest, rfl, ?_⟩
    have hne : escore h0 ≠ escore item := by
      have hx := hn
      unfold NodupScores at hx
      rw [List.map_cons, List.nodup_cons] at hx
      intro hc
      exact hx.1 (by rw [List.map_cons]; exact hc ▸ List.mem_cons_self _ _)
    have hcmpeq : entryLt h0 item = .ok (decide (escore h0 < escore item)) :=
      entryLt_of_ne hne
    by_cases hcmp : escore h0 < escore item
    · refine Or.inr ⟨hcmp, ?_⟩
      have hW : WInv1 ((item :: rest).set 0 item) 0 := by
        rw [List.set_cons_zero]
        intro j hj0 hjlen hjne hpne
        have hp0 : 0 < par j := Nat.pos_of_ne_zero hpne
        obtain ⟨j', hj'⟩ : ∃ j', j = j' + 1 := ⟨j - 1, by omega⟩
        obtain ⟨q', hq'⟩ : ∃ q', par j = q' + 1 := ⟨par j - 1, by omega⟩
        have e1 : hget (item :: rest) j = hget (h0 :: rest) j := by
          rw [hj']
          rfl
        have e2 : hget (item :: rest) (par j) = hget (h0 :: rest) (par j) := by
          rw [hq']
          rfl
        rw [e1, e2]
        exact hh j hj0 (by simpa using hjlen)
      have hH2 : HInv2 ((item :: rest).set 0 item) 0 := by
        intro hc
        omega
      have hnod : NodupScores ((item :: rest).set 0 item) := by
        rw [List.set_cons_zero]
        unfold NodupScores
        refine List.Nodup.sublist ?_ hn
        exact List.Sublist.map escore (List.Sublist.cons₂ item (List.sublist_cons_self h0 rest))
      obtain ⟨h', hok, hperm, hheap⟩ := siftup_spec (item :: rest).length
        (item :: rest) 0 item (by omega) (by simp) hW hH2 hnod
      refine ⟨h', ?_, ?_, hheap⟩
      · show (match entryLt h0 item with
          | Except.error e => (Except.error e : Except PyErr (Entry × List Entry))
          | Except.ok true => (siftup (item :: rest) 0 0 item).map (fun h => (h0, h))
          | Except.ok false => Except.ok (item, h0 :: rest)) = Except.ok (h0, h')
        rw [hcmpeq, decide_eq_true hcmp]
        rw [hok]
        rfl
      · rw [List.set_cons_zero] at hperm
        exact hperm
    · have hlt : escore item < escore h0 :=
        lt_of_le_of_ne (not_lt.mp hcmp) (fun hc => hne hc.symm)
      refine Or.inl ⟨hlt, ?_⟩
      show (match entryLt h0 item with
        | Except.error e => (Except.error e : Except PyErr (Entry × List Entry))
        | Except.ok true => (siftup (item :: rest) 0 0 item).map (fun h => (h0, h))
        | Except.ok false => Except.ok (item, h0 :: rest)) = Except.ok (item, h0 :: rest)
      rw [hcmpeq, decide_eq_false hcmp]

/-! ## Descending order on entries and the top-K specification -/

/-- Weak descending order by score. -/
def entGe (a b : Entry) : Prop := escore b ≤ escore a

/-- Strict descending order by score. -/
def entGt (a b : Entry) : Prop := escore b < escore a

instance : DecidableRel entGe := fun a b => by
  unfold entGe
  infer_instance

instance : IsTotal Entry entGe := by
  constructor
  intro a b
  rcases le_total (escore a) (escore b) with h | h
  · exact Or.inr h
  · exact Or.inl h

instance : IsTrans Entry entGe := by
  constructor
  intro a b c hab hbc
  exact hbc.trans hab

instance : IsTrans Entry entGt := by
  constructor
  intro a b c hab hbc
  exact hbc.trans hab

instance : IsAntisymm Entry entGt := by
  constructor
  intro a b h1 h2
  exact absurd h1 (lt_asymm h2)

instance (priority := 2000) : BEq Entry := instBEqOfDecidableEq

instance : LawfulBEq Entry := by
  constructor
  · intro a b h
    exact of_decide_eq_true h
  · intro a
    exact decide_eq_true rfl

/-- The unique descending arrangement of a list of entries (the reference
ranking: score the whole sequence and sort descending). -/
def sortDesc (l : List Entry) : List Entry := List.insertionSort entGe l

/-- The first `k` entries of the full descending ranking. -/
def topK (k : Nat) (l : List Entry) : List Entry := (sortDesc l).take k

theorem topK_def (k : Nat) (l : List Entry) : topK k l = (sortDesc l).take k := rfl

theorem sortDesc_perm (l : List Entry) : (sortDesc l).Perm l :=
  List.perm_insertionSort entGe l

theorem sortDesc_sorted (l : List Entry) : List.Sorted entGe (sortDesc l) :=
  List.sorted_insertionSort entGe l

theorem length_sortDesc (l : List Entry) : (sortDesc l).length = l.length :=
  (sortDesc_perm l).length_eq

theorem nodupScores_perm {l₁ l₂ : List Entry} (hp : l₁.Perm l₂) :
    NodupScores l₁ ↔ NodupScores l₂ :=
  List.Perm.nodup_iff (hp.map escore)

theorem nodupScores_sublist {l₁ l₂ : List Entry} (hs : l₁.Sublist l₂)
    (hn : NodupScores l₂) : NodupScores l₁ :=
  List.Nodup.sublist (hs.map escore) hn

theorem strict_sorted_of_nodup {l : List Entry} (hs : List.Sorted entGe l)
    (hn : NodupScores l) : List.Pairwise entGt l := by
  have hne : List.Pairwise (fun a b : Entry => escore a ≠ escore b) l :=
    List.pairwise_map.mp hn
  exact (hs.and hne).imp (fun h => lt_of_le_of_ne h.1 (fun hc => h.2 hc.symm))

theorem sorted_desc_unique {l₁ l₂ : List Entry} (hp : l₁.Perm l₂)
    (h1 : List.Pairwise entGt l₁) (h2 : List.Pairwise entGt l₂) : l₁ = l₂ :=
  List.eq_of_perm_of_sorted hp h1 h2

theorem sortDesc_strict (l : List Entry) (hn : NodupScores l) :
    List.Pairwise entGt (sortDesc l) :=
  strict_sorted_of_nodup (sortDesc_sorted l)
    ((nodupScores_perm (sortDesc_perm l)).mpr hn)

theorem fresh_score {l : List Entry} {e : Entry} (hn : NodupScores (l ++ [e])) :
    escore e ∉ l.map escore ∧ NodupScores l := by
  unfold NodupScores at hn
  rw [List.map_append, List.nodup_append] at hn
  obtain ⟨h1, _, h3⟩ := hn
  constructor
  · intro hmem
    exact h3 hmem (by simp)
  · exact h1

theorem sortDesc_append_eq (l X Y : List Entry) (hperm : (X ++ Y).Perm l)
    (hn : NodupScores l) (hsx : List.Pairwise entGt X)
    (hsy : List.Pairwise entGt Y) (hcross : ∀ x ∈ X, ∀ y ∈ Y, entGt x y) :
    sortDesc l = X ++ Y :=
  sorted_desc_unique ((sortDesc_perm l).trans hperm.symm)
    (sortDesc_strict l hn) (List.pairwise_append.mpr ⟨hsx, hsy, hcross⟩)

theorem topK_small (K : Nat) (l : List Entry) (e : Entry) (hlen : l.length < K) :
    (topK K (l ++ [e])).Perm (e :: topK K l) := by
  have h1 : topK K l = sortDesc l := by
    rw [topK_def]
    exact List.take_of_length_le (by rw [length_sortDesc]; omega)
  have h2 : topK K (l ++ [e]) = sortDesc (l ++ [e]) := by
    rw [topK_def]
    refine List.take_of_length_le ?_
    rw [length_sortDesc, List.length_append, List.length_singleton]
    omega
  rw [h1, h2]
  exact (sortDesc_perm (l ++ [e])).trans
    ((List.perm_append_singleton e l).trans ((sortDesc_perm l).symm.cons e))

theorem topK_skip (K : Nat) (l : List Entry) (e : Entry)
    (hn : NodupScores (l ++ [e])) (hK : K ≤ l.length)
    (hmax : ∀ x ∈ topK K l, escore e < escore x) :
    topK K (l ++ [e]) = topK K l := by
  obtain ⟨hfresh, hnl⟩ := fresh_score hn
  have hTR := List.take_append_drop K (sortDesc l)
  have hSsorted := sortDesc_strict l hnl
  have hsplit := List.pairwise_append.mp (hTR ▸ hSsorted)
  have hSnodup : NodupScores (sortDesc l) :=
    (nodupScores_perm (sortDesc_perm l)).mpr hnl
  have hnR : NodupScores ((sortDesc l).drop K ++ [e]) := by
    unfold NodupScores
    rw [List.map_append, List.nodup_append]
    refine ⟨nodupScores_sublist (List.drop_sublist K _) hSnodup, by simp, ?_⟩
    intro a ha hae
    rw [List.mem_singleton.mp hae] at ha
    obtain ⟨x, hx, hxe⟩ := List.mem_map.mp ha
    exact hfresh (hxe ▸ List.mem_map_of_mem escore
      ((sortDesc_perm l).mem_iff.mp (List.mem_of_mem_drop hx)))
  have hsortedRe := sortDesc_strict _ hnR
  have heq : sortDesc (l ++ [e]) =
      (sortDesc l).take K ++ sortDesc ((sortDesc l).drop K ++ [e]) := by
    apply sortDesc_append_eq
    · refine (List.Perm.append_left _ (sortDesc_perm _)).trans ?_
      rw [← List.append_assoc, hTR]
      exact (sortDesc_perm l).append_right [e]
    · exact hn
    · exact hsplit.1
    · exact hsortedRe
    · intro x hx y hy
      have hy' : y ∈ (sortDesc l).drop K ++ [e] := (sortDesc_perm _).mem_iff.mp hy
      rcases List.mem_append.mp hy' with hyR | hyE
      · exact hsplit.2.2 x hx y hyR
      · rw [List.mem_singleton.mp hyE]
        exact hmax x hx
  have hTlen : ((sortDesc l).take K).length = K := by
    rw [List.length_take, length_sortDesc]
    omega
  rw [topK_def, heq, List.take_append_eq_append_take, hTlen, Nat.sub_self,
    List.take_zero, List.append_nil, List.take_of_length_le (le_of_eq hTlen),
    topK_def]

theorem topK_swap (K : Nat) (l : List Entry) (e t0 : Entry)
    (hn : NodupScores (l ++ [e])) (hK : K ≤ l.length)
    (ht0 : t0 ∈ topK K l)
    (hmin : ∀ x ∈ topK K l, escore t0 ≤ escore x)
    (hlt : escore t0 < escore e) :
    (topK K (l ++ [e])).Perm (e :: (topK K l).erase t0) := by
  obtain ⟨hfresh, hnl⟩ := fresh_score hn
  rw [topK_def] at ht0 hmin
  have hTR := List.take_append_drop K (sortDesc l)
  have hSsorted := sortDesc_strict l hnl
  have hsplit := List.pairwise_append.mp (hTR ▸ hSsorted)
  have hSnodup : NodupScores (sortDesc l) :=
    (nodupScores_perm (sortDesc_perm l)).mpr hnl
  have hTlen : ((sortDesc l).take K).length = K := by
    rw [List.length_take, length_sortDesc]
    omega
  have hnTe : NodupScores ((sortDesc l).take K ++ [e]) := by
    unfold NodupScores
    rw [List.map_append, List.nodup_append]
    refine ⟨nodupScores_sublist (List.take_sublist K _) hSnodup, by simp, ?_⟩
    intro a ha hae
    rw [List.mem_singleton.mp hae] at ha
    obtain ⟨x, hx, hxe⟩ := List.mem_map.mp ha
    exact hfresh (hxe ▸ List.mem_map_of_mem escore
      ((sortDesc_perm l).mem_iff.mp (List.mem_of_mem_take hx)))
  have hApermTe : (sortDesc ((sortDesc l).take K ++ [e])).Perm
      ((sortDesc l).take K ++ [e]) := sortDesc_perm _
  have hAsorted := sortDesc_strict _ hnTe
  have heq : sortDesc (l ++ [e]) =
      sortDesc ((sortDesc l).take K ++ [e]) ++ (sortDesc l).drop K := by
    apply sortDesc_append_eq
    · refine (List.Perm.append_right _ hApermTe).trans ?_
      rw [List.append_assoc]
      refine (List.Perm.append_left _ List.perm_append_comm).trans ?_
      rw [← List.append_assoc, hTR]
      exact (sortDesc_perm l).append_right [e]
    · exact hn
    · exact hAsorted
    · exact hsplit.2.1
    · intro x hx y hy
      have hx' : x ∈ (sortDesc l).take K ++ [e] := hApermTe.mem_iff.mp hx
      rcases List.mem_append.mp hx' with hxT | hxE
      · exact hsplit.2.2 x hxT y hy
      · rw [List.mem_singleton.mp hxE]
        exact lt_trans (hsplit.2.2 t0 ht0 y hy) hlt
  have hAlen : (sortDesc ((sortDesc l).take K ++ [e])).length = K + 1 := by
    rw [length_sortDesc, List.length_append, hTlen, List.length_singleton]
  have htopk : topK K (l ++ [e]) = (sortDesc ((sortDesc l).take K ++ [e])).take K := by
    rw [topK_def, heq, List.take_append_eq_append_take]
    have hz : K - (sortDesc ((sortDesc l).take K ++ [e])).length = 0 := by
      rw [hAlen]
      omega
    rw [hz, List.take_zero, List.append_nil]
  obtain ⟨z, hz⟩ : ∃ z, (sortDesc ((sortDesc l).take K ++ [e])).drop K = [z] := by
    refine List.length_eq_one.mp ?_
    rw [List.length_drop, hAlen]
    omega
  have hATR := List.take_append_drop K (sortDesc ((sortDesc l).take K ++ [e]))
  have hAsplit := List.pairwise_append.mp (hATR ▸ hAsorted)
  have hcrossz : ∀ x ∈ (sortDesc ((sortDesc l).take K ++ [e])).take K,
      escore z < escore x := by
    intro x hx
    exact hAsplit.2.2 x hx z (by rw [hz]; exact List.mem_singleton_self z)
  have hzmem : z ∈ (sortDesc l).take K ++ [e] := by
    refine hApermTe.mem_iff.mp ?_
    rw [← hATR]
    exact List.mem_append.mpr (Or.inr (by rw [hz]; exact List.mem_singleton_self z))
  have hzt0 : z = t0 := by
    by_contra hne
    have ht0A : t0 ∈ sortDesc ((sortDesc l).take K ++ [e]) :=
      hApermTe.mem_iff.mpr (List.mem_append.mpr (Or.inl ht0))
    rw [← hATR] at ht0A
    rcases List.mem_append.mp ht0A with h | h
    · have hzlt := hcrossz t0 h
      rcases List.mem_append.mp hzmem with hzT | hzE
      · exact absurd (hmin z hzT) (not_le.mpr hzlt)
      · rw [List.mem_singleton.mp hzE] at hzlt
        exact absurd hzlt (not_lt.mpr (le_of_lt hlt))
    · rw [hz] at h
      exact hne (List.mem_singleton.mp h).symm
  subst hzt0
  have ht0nottake : z ∉ (sortDesc ((sortDesc l).take K ++ [e])).take K := by
    intro hmem
    exact absurd (hcrossz z hmem) (lt_irrefl _)
  have htake_erase : (sortDesc ((sortDesc l).take K ++ [e])).take K =
      (sortDesc ((sortDesc l).take K ++ [e])).erase z := by
    conv_rhs => rw [← hATR]
    rw [hz, List.erase_append_right _ ht0nottake, List.erase_cons_head,
      List.append_nil]
  rw [htopk, htake_erase, topK_def]
  refine (hApermTe.erase z).trans ?_
  rw [List.erase_append_left _ ht0]
  exact List.perm_append_singleton e _

theorem insortDesc_eq (e : Entry) : ∀ l : List Entry,
    (∀ y ∈ l, escore y ≠ escore e) →
    insortDesc e l = .ok (List.orderedInsert entGe e l) := by
  intro l
  induction l with
  | nil => intro hall; rfl
  | cons y ys ih =>
    intro hall
    have hne : escore y ≠ escore e := hall y (List.mem_cons_self y ys)
    unfold insortDesc
    rw [entryLt_of_ne hne]
    by_cases hcmp : escore y < escore e
    · rw [decide_eq_true hcmp]
      simp only [List.orderedInsert]
      rw [if_pos (show entGe e y from le_of_lt hcmp)]
    · rw [decide_eq_false hcmp]
      have hgt : escore e < escore y :=
        lt_of_le_of_ne (not_lt.mp hcmp) (fun hc => hne hc.symm)
      rw [ih (fun z hz => hall z (List.mem_cons_of_mem y hz))]
      simp only [List.orderedInsert]
      rw [if_neg (show ¬entGe e y from not_le.mpr hgt)]
      rfl

theorem sortedDesc_eq : ∀ l : List Entry, NodupScores l →
    sortedDesc l = .ok (sortDesc l) := by
  intro l
  induction l with
  | nil => intro hn; rfl
  | cons x xs ih =>
    intro hn
    have hx := hn
    unfold NodupScores at hx
    rw [List.map_cons, List.nodup_cons] at hx
    have hnx : NodupScores xs := hx.2
    have hnotin : escore x ∉ xs.map escore := hx.1
    unfold sortedDesc
    rw [ih hnx]
    have hall : ∀ y ∈ sortDesc xs, escore y ≠ escore x := by
      intro y hy hc
      exact hnotin (hc ▸ List.mem_map_of_mem escore
        ((sortDesc_perm xs).mem_iff.mp hy))
    show insortDesc x (sortDesc xs) = .ok (sortDesc (x :: xs))
    rw [insortDesc_eq x (sortDesc xs) hall]
    rfl

theorem heap_nodup {sc : List Entry} (K : Nat) (hn : NodupScores sc) :
    NodupScores (topK K sc) := by
  rw [topK_def]
  exact nodupScores_sublist (List.take_sublist K _)
    ((nodupScores_perm (sortDesc_perm sc)).mpr hn)

theorem mem_topK_mem {sc : List Entry} {K : Nat} {x : Entry}
    (hx : x ∈ topK K sc) : x ∈ sc := by
  rw [topK_def] at hx
  exact (sortDesc_perm sc).mem_iff.mp (List.mem_of_mem_take hx)

theorem streamStep_inv (mlib : MathOracle) (now : ℚ) (algorithm : String)
    (kw : ScoreKwargs) (f : Post → ℚ)
    (hs : ∀ p, calculate_score mlib now algorithm kw p = .ok (f p)) (K : Nat)
    (sc : List Entry) (p : Post) (h : List Entry)
    (hn : NodupScores (sc ++ [(f p, p)]))
    (hh : IsHeap h) (hperm : h.Perm (topK K sc)) :
    ∃ h', streamStep mlib now algorithm kw K h p = .ok h' ∧ IsHeap h' ∧
      h'.Perm (topK K (sc ++ [(f p, p)])) := by
  obtain ⟨hfresh, hnsc⟩ := fresh_score hn
  have hhsub : ∀ x ∈ h, x ∈ sc := fun x hx => mem_topK_mem (hperm.mem_iff.mp hx)
  have hhnodup : NodupScores h := (nodupScores_perm hperm).mpr (heap_nodup K hnsc)
  have hhfresh : escore (f p, p) ∉ h.map escore := by
    intro hmem
    obtain ⟨x, hx, hxe⟩ := List.mem_map.mp hmem
    exact hfresh (hxe ▸ List.mem_map_of_mem escore (hhsub x hx))
  have hlen_topk : (topK K sc).length = min K sc.length := by
    rw [topK_def, List.length_take, length_sortDesc]
  have hstep : streamStep mlib now algorithm kw K h p =
      (if h.length < K then heappush h (f p, p)
       else (heappushpop h (f p, p)).map (fun r => r.2)) := by
    unfold streamStep
    rw [hs p]
  by_cases hsize : h.length < K
  · obtain ⟨h', hok, hperm', hheap'⟩ := heappush_spec h (f p, p) hh (by
      unfold NodupScores
      rw [List.map_append, List.nodup_append]
      refine ⟨hhnodup, by simp, ?_⟩
      intro a ha hae
      rw [List.mem_singleton.mp hae] at ha
      exact hhfresh ha)
    refine ⟨h', by rw [hstep, if_pos hsize, hok], hheap', ?_⟩
    have hsc_small : sc.length < K := by
      have hl := hperm.length_eq
      rw [hlen_topk] at hl
      omega
    exact hperm'.trans ((hperm.cons _).trans
      (topK_small K sc (f p, p) hsc_small).symm)
  · have hl := hperm.length_eq
    rw [hlen_topk] at hl
    have hhK : h.length = K := by omega
    have hKsc : K ≤ sc.length := by omega
    have hnpp : NodupScores ((f p, p) :: h) := by
      unfold NodupScores
      rw [List.map_cons, List.nodup_cons]
      exact ⟨hhfresh, hhnodup⟩
    rcases heappushpop_spec h (f p, p) hh hnpp with ⟨hnil, hok⟩ |
      ⟨h0, rest, hcons, hcases⟩
    · subst hnil
      have hK0 : K = 0 := by simpa using hhK.symm
      subst hK0
      refine ⟨[], by rw [hstep, if_neg hsize, hok]; rfl, hh, ?_⟩
      rw [topK_def, List.take_zero]
    · subst hcons
      have hroot : ∀ x ∈ topK K sc, escore h0 ≤ escore x := by
        intro x hx
        have hxh : x ∈ h0 :: rest := hperm.mem_iff.mpr hx
        obtain ⟨j, hj, hxj⟩ := List.getElem_of_mem hxh
        have hx0 : escore (hget (h0 :: rest) 0) ≤ escore (hget (h0 :: rest) j) :=
          isHeap_root_le hh j hj
        have ej : hget (h0 :: rest) j = x := by
          show (h0 :: rest).getD j dEntry = x
          rw [List.getD_eq_getElem _ dEntry hj]
          exact hxj
        rw [ej] at hx0
        exact hx0
      rcases hcases with ⟨hlt, hok⟩ | ⟨hlt, h', hok, hperm', hheap'⟩
      · refine ⟨h0 :: rest, by rw [hstep, if_neg hsize, hok]; rfl, hh, ?_⟩
        rw [topK_skip K sc (f p, p) hn hKsc
          (fun x hx => lt_of_lt_of_le hlt (hroot x hx))]
        exact hperm
      · refine ⟨h', by rw [hstep, if_neg hsize, hok]; rfl, hheap', ?_⟩
        have h0mem : h0 ∈ topK K sc :=
          hperm.mem_iff.mp (List.mem_cons_self h0 rest)
        have hrest : rest.Perm ((topK K sc).erase h0) := by
          have hx := hperm.erase h0
          rw [List.erase_cons_head] at hx
          exact hx
        exact hperm'.trans ((hrest.cons _).trans
          (topK_swap K sc (f p, p) h0 hn hKsc h0mem hroot hlt).symm)

theorem stream_fold (mlib : MathOracle) (now : ℚ) (algorithm : String)
    (kw : ScoreKwargs) (f : Post → ℚ)
    (hs : ∀ p, calculate_score mlib now algorithm kw p = .ok (f p)) (K : Nat) :
    ∀ (rest : List Post) (sc : List Entry) (h : List Entry),
      NodupScores (sc ++ rest.map (fun q => (f q, q))) →
      IsHeap h → h.Perm (topK K sc) →
      ∃ h', rest.foldlM (streamStep mlib now algorithm kw K) h = .ok h' ∧
        IsHeap h' ∧ h'.Perm (topK K (sc ++ rest.map (fun q => (f q, q)))) := by
  intro rest
  induction rest with
  | nil =>
    intro sc h hn hh hperm
    refine ⟨h, rfl, hh, ?_⟩
    rw [List.map_nil, List.append_nil]
    exact hperm
  | cons p rest' ih =>
    intro sc h hn hh hperm
    have hassoc : sc ++ (p :: rest').map (fun q => (f q, q)) =
        (sc ++ [(f p, p)]) ++ rest'.map (fun q => (f q, q)) := by
      rw [List.map_cons, List.append_assoc, List.singleton_append]
    have hn1 : NodupScores (sc ++ [(f p, p)]) := by
      refine nodupScores_sublist ?_ hn
      rw [List.map_cons]
      exact List.Sublist.append_left
        (List.Sublist.cons₂ _ (List.nil_sublist _)) sc
    obtain ⟨h1, hok1, hh1, hperm1⟩ :=
      streamStep_inv mlib now algorithm kw f hs K sc p h hn1 hh hperm
    obtain ⟨h', hok', hh', hperm'⟩ := ih (sc ++ [(f p, p)]) h1
      (by rw [← hassoc]; exact hn) hh1 hperm1
    refine ⟨h', ?_, hh', ?_⟩
    · rw [List.foldlM_cons, hok1, except_bind_ok]
      exact hok'
    · rw [hassoc]
      exact hperm'

theorem chunkList_join_aux (bs : Nat) (hbs : 0 < bs) :
    ∀ (n : Nat) (l : List Post), l.length ≤ n → (chunkList bs l).flatten = l := by
  intro n
  induction n with
  | zero =>
    intro l hl
    have : l = [] := List.length_eq_zero.mp (by omega)
    subst this
    rw [chunkList, if_neg (by omega), dif_pos rfl]
    rfl
  | succ n ih =>
    intro l hl
    cases hl0 : l with
    | nil =>
      rw [chunkList, if_neg (by omega), dif_pos rfl]
      rfl
    | cons x t =>
      rw [chunkList, if_neg (by omega), dif_neg (by simp)]
      rw [List.flatten_cons]
      rw [ih ((x :: t).drop bs) (by
        rw [List.length_drop]
        rw [hl0] at hl
        simp only [List.length_cons] at hl ⊢
        omega)]
      exact List.take_append_drop bs (x :: t)

theorem chunkList_join (bs : Nat) (hbs : 0 < bs) (l : List Post) :
    (chunkList bs l).flatten = l :=
  chunkList_join_aux bs hbs l.length l (le_refl _)

theorem foldlM_chunks (step : List Entry → Post → Except PyErr (List Entry)) :
    ∀ (L : List (List Post)) (h : List Entry),
      L.foldlM (fun h batch => batch.foldlM step h) h = L.flatten.foldlM step h := by
  intro L
  induction L with
  | nil => intro h; rfl
  | cons b L' ih =>
    intro h
    rw [List.flatten_cons, List.foldlM_cons, List.foldlM_append]
    cases hb : b.foldlM step h with
    | error e => rw [except_bind_err, except_bind_err]
    | ok h1 =>
      rw [except_bind_ok, except_bind_ok]
      exact ih h1

theorem score_total_ok (mlib : MathOracle) (now : ℚ) (algorithm : String)
    (kw : ScoreKwargs) (hok : ScoreOK algorithm kw) (p : Post) :
    calculate_score mlib now algorithm kw p =
      .ok (score_value mlib now algorithm kw p) := by
  obtain ⟨hmem, hw⟩ := hok
  simp only [validAlgorithms, List.mem_cons, List.not_mem_nil, or_false] at hmem
  rcases hmem with h | h | h | h <;> subst h
  · rfl
  · rfl
  · rfl
  · have hL : calculate_score mlib now "hybrid" kw p =
        hybrid_score mlib now p kw.weights := rfl
    rw [hL]
    rcases hwopt : kw.weights with _ | w
    · have hR : score_value mlib now "hybrid" kw p =
          ((p.likes : ℚ) * (kw.weights.getD default_weights).likes.getD 0 +
              (p.comments : ℚ) * (kw.weights.getD default_weights).comments.getD 0 +
              (p.shares : ℚ) * (kw.weights.getD default_weights).shares.getD 0) *
            mlib.exp (-((kw.weights.getD default_weights).time_decay.getD 0 *
              (now - p.timestamp))) := rfl
      rw [hR, hwopt]
      rfl
    · obtain ⟨hl, hc, hs, ht⟩ := hw rfl w hwopt
      obtain ⟨a, ha⟩ := Option.isSome_iff_exists.mp hl
      obtain ⟨b, hb⟩ := Option.isSome_iff_exists.mp hc
      obtain ⟨c, hc2⟩ := Option.isSome_iff_exists.mp hs
      obtain ⟨d, hd⟩ := Option.isSome_iff_exists.mp ht
      have hR : score_value mlib now "hybrid" kw p =
          ((p.likes : ℚ) * (kw.weights.getD default_weights).likes.getD 0 +
              (p.comments : ℚ) * (kw.weights.getD default_weights).comments.getD 0 +
              (p.shares : ℚ) * (kw.weights.getD default_weights).shares.getD 0) *
            mlib.exp (-((kw.weights.getD default_weights).time_decay.getD 0 *
              (now - p.timestamp))) := rfl
      rw [hR, hwopt]
      cases w
      dsimp only at ha hb hc2 hd
      subst ha
      subst hb
      subst hc2
      subst hd
      rfl

/-- Pushing a second entry whose score ties the root's but whose payload
differs raises `TypeError` (the raw-tuple comparison reaches the posts). -/
theorem heappush_tie_crash (e1 e2 : Entry) (hs : e2.1 = e1.1) (hp : e2.2 ≠ e1.2) :
    heappush [e1] e2 = .error .typeError := by
  have hlt : entryLt e2 e1 = .error .typeError := by
    unfold entryLt
    rw [if_pos hs, if_neg hp]
  show siftdown ([e1] ++ [e2]) 0 1 e2 = .error .typeError
  rw [siftdown, dif_pos (by omega : (0:Nat) < 1)]
  dsimp only
  rw [show hget ([e1] ++ [e2]) ((1 - 1) / 2) = e1 from rfl, hlt]

/-- C1 (amended): when every score is defined (registered algorithm,
complete weights if supplied) and the scored sequence has pairwise-distinct
scores, `rank_posts_streaming` returns exactly the first `K` entries of the
descending sort of the fully scored sequence, processes every item, and the
result is independent of the (positive) batch size. -/
theorem c1_streaming_matches_full_sort (mlib : MathOracle) (now : ℚ)
    (algorithm : String) (kw : ScoreKwargs) (posts : List Post) (bs K : Nat)
    (hok : ScoreOK algorithm kw) (hbs : 0 < bs) (hK : K ≤ posts.length)
    (hn : NodupScores (posts.map fun q =>
      (score_value mlib now algorithm kw q, q))) :
    rank_posts_streaming mlib now bs posts algorithm K kw =
      .ok ⟨topK K (posts.map fun q => (score_value mlib now algorithm kw q, q)),
        posts.length, algorithm, bs⟩ := by
  have hs : ∀ p, calculate_score mlib now algorithm kw p =
      .ok (score_value mlib now algorithm kw p) :=
    score_total_ok mlib now algorithm kw hok
  have hheap0 : IsHeap ([] : List Entry) := by
    intro j hj0 hjlen
    simp only [List.length_nil] at hjlen
    omega
  have hperm0 : ([] : List Entry).Perm (topK K []) := by
    rw [topK_def, show sortDesc [] = [] from rfl, List.take_nil]
  obtain ⟨hfin, hokf, hhf, hpermf⟩ := stream_fold mlib now algorithm kw _ hs K
    posts [] [] (by rw [List.nil_append]; exact hn) hheap0 hperm0
  rw [List.nil_append] at hpermf
  have hnf : NodupScores hfin := (nodupScores_perm hpermf).mpr (heap_nodup K hn)
  have hsorted : sortedDesc hfin = .ok (sortDesc hfin) := sortedDesc_eq hfin hnf
  have hfineq : sortDesc hfin =
      topK K (posts.map fun q => (score_value mlib now algorithm kw q, q)) := by
    refine sorted_desc_unique ((sortDesc_perm hfin).trans hpermf)
      (sortDesc_strict hfin hnf) ?_
    rw [topK_def]
    exact List.Pairwise.sublist (List.take_sublist _ _) (sortDesc_strict _ hn)
  have htot : ((chunkList bs posts).map List.length).sum = posts.length := by
    rw [← List.length_flatten, chunkList_join bs hbs posts]
  simp only [rank_posts_streaming]
  rw [foldlM_chunks (streamStep mlib now algorithm kw K) (chunkList bs posts) [],
    chunkList_join bs hbs posts, hokf]
  dsimp only
  rw [hsorted]
  dsimp only
  rw [hfineq, htot]

/-- Two posts with identical counters (hence identical scores) and distinct
ids, timestamped at the reference time. -/
def tiePost1 : Post := mkPost 0 "t1" noKwargs

/-- Second identically-countered post. -/
def tiePost2 : Post := mkPost 0 "t2" noKwargs

/-- C1 counterexample: with two equal-scored items, K = 2 = sequence length
and batch_size = 1, the streaming selector does not return the sorted
top-K at all - the raw `(score, Post)` comparison raises `TypeError`. -/
theorem c1_streaming_tie_counterexample :
    rank_posts_streaming oracle0 0 1 [tiePost1, tiePost2] "engagement_score" 2
      noScoreKwargs = .error .typeError := by
  have h1 : streamStep oracle0 0 "engagement_score" noScoreKwargs 2 []
      tiePost1 = .ok [(engagement_score 0 tiePost1, tiePost1)] := by
    show (if ([] : List Entry).length < 2 then
        heappush [] (engagement_score 0 tiePost1, tiePost1)
      else Except.map (fun r => r.2)
        (heappushpop [] (engagement_score 0 tiePost1, tiePost1))) =
      Except.ok [(engagement_score 0 tiePost1, tiePost1)]
    rw [if_pos (by decide : ([] : List Entry).length < 2)]
    show siftdown ([] ++ [(engagement_score 0 tiePost1, tiePost1)]) 0
      ([] : List Entry).length (engagement_score 0 tiePost1, tiePost1) = _
    rw [siftdown, dif_neg (by decide : ¬((0:Nat) < ([] : List Entry).length))]
    rfl
  have h2 : streamStep oracle0 0 "engagement_score" noScoreKwargs 2
      [(engagement_score 0 tiePost1, tiePost1)] tiePost2 = .error .typeError := by
    show (if [(engagement_score 0 tiePost1, tiePost1)].length < 2 then
        heappush [(engagement_score 0 tiePost1, tiePost1)]
          (engagement_score 0 tiePost2, tiePost2)
      else Except.map (fun r => r.2)
        (heappushpop [(engagement_score 0 tiePost1, tiePost1)]
          (engagement_score 0 tiePost2, tiePost2))) = Except.error PyErr.typeError
    rw [if_pos (by decide : [(engagement_score 0 tiePost1, tiePost1)].length < 2)]
    exact heappush_tie_crash _ _ rfl
      (fun hc => absurd (congrArg Post.post_id hc) (by decide))
  simp only [rank_posts_streaming]
  rw [foldlM_chunks (streamStep oracle0 0 "engagement_score" noScoreKwargs 2)
      (chunkList 1 [tiePost1, tiePost2]) [],
    chunkList_join 1 one_pos [tiePost1, tiePost2]]
  rw [List.foldlM_cons, h1, except_bind_ok, List.foldlM_cons, h2, except_bind_err]

/-- Witness post with one like. -/
def wPost1 : Post := mkPost 0 "w1" ⟨some 1, none, none, none, none, none, none⟩

/-- Witness post with two likes. -/
def wPost2 : Post := mkPost 0 "w2" ⟨some 2, none, none, none, none, none, none⟩

theorem c1_streaming_matches_full_sort_witness :
    ScoreOK "engagement_score" noScoreKwargs ∧ (0:Nat) < 1 ∧
      1 ≤ ([wPost1, wPost2] : List Post).length ∧
      NodupScores ([wPost1, wPost2].map fun q =>
        (score_value oracle0 0 "engagement_score" noScoreKwargs q, q)) ∧
      rank_posts_streaming oracle0 0 1 [wPost1, wPost2] "engagement_score" 1
          noScoreKwargs =
        .ok ⟨topK 1 ([wPost1, wPost2].map fun q =>
            (score_value oracle0 0 "engagement_score" noScoreKwargs q, q)),
          ([wPost1, wPost2] : List Post).length, "engagement_score", 1⟩ := by
  have hok : ScoreOK "engagement_score" noScoreKwargs := by
    constructor
    · simp [validAlgorithms]
    · intro h
      exact absurd h (by decide)
  have hn : NodupScores ([wPost1, wPost2].map fun q =>
      (score_value oracle0 0 "engagement_score" noScoreKwargs q, q)) := by
    simp only [NodupScores, List.map_cons, List.map_nil, escore,
      List.nodup_cons, List.not_mem_nil, List.mem_singleton, not_false_iff,
      List.nodup_nil, and_true, List.mem_cons, or_false]
    have hne : ¬("engagement_score" = "hot_score") := by decide
    norm_num [score_value, engagement_score, wPost1, wPost2, mkPost,
      postFields, post_init, noKwargs, if_neg hne]
  exact ⟨hok, by decide, by decide, hn,
    c1_streaming_matches_full_sort oracle0 0 "engagement_score" noScoreKwargs
      [wPost1, wPost2] 1 1 hok (by decide) (by decide) hn⟩

/-- First of two posts whose `time_decay` scores tie. -/
def duPost1 : Post := mkPost 0 "u1" noKwargs

/-- Second tied post, distinct id. -/
def duPost2 : Post := mkPost 0 "u2" noKwargs

/-- The streaming selector's `time_decay` score with the default decay rate. -/
def duScore (p : Post) : ℚ :=
  time_decay_score oracle0 0 p (noScoreKwargs.decay_rate.getD (1 / 100))

/-- C2: the bounded heap compares raw `(score, Post)` tuples with no
secondary tie-break key, so on a sequence of two well-formed items with
equal scores `rank_posts_streaming` is not total: it raises `TypeError`
from the post-to-post comparison. -/
theorem c2_heap_comparison_not_total :
    rank_posts_streaming oracle0 0 2 [duPost1, duPost2] "time_decay" 2
      noScoreKwargs = .error .typeError := by
  have h1 : streamStep oracle0 0 "time_decay" noScoreKwargs 2 []
      duPost1 = .ok [(duScore duPost1, duPost1)] := by
    show (if ([] : List Entry).length < 2 then
        heappush [] (duScore duPost1, duPost1)
      else Except.map (fun r => r.2)
        (heappushpop [] (duScore duPost1, duPost1))) =
      Except.ok [(duScore duPost1, duPost1)]
    rw [if_pos (by decide : ([] : List Entry).length < 2)]
    show siftdown ([] ++ [(duScore duPost1, duPost1)]) 0
      ([] : List Entry).length (duScore duPost1, duPost1) = _
    rw [siftdown, dif_neg (by decide : ¬((0:Nat) < ([] : List Entry).length))]
    rfl
  have h2 : streamStep oracle0 0 "time_decay" noScoreKwargs 2
      [(duScore duPost1, duPost1)] duPost2 = .error .typeError := by
    show (if [(duScore duPost1, duPost1)].length < 2 then
        heappush [(duScore duPost1, duPost1)] (duScore duPost2, duPost2)
      else Except.map (fun r => r.2)
        (heappushpop [(duScore duPost1, duPost1)]
          (duScore duPost2, duPost2))) = Except.error PyErr.typeError
    rw [if_pos (by decide : [(duScore duPost1, duPost1)].length < 2)]
    exact heappush_tie_crash _ _ rfl
      (fun hc => absurd (congrArg Post.post_id hc) (by decide))
  simp only [rank_posts_streaming]
  rw [foldlM_chunks (streamStep oracle0 0 "time_decay" noScoreKwargs 2)
      (chunkList 2 [duPost1, duPost2]) [],
    chunkList_join 2 (by decide) [duPost1, duPost2]]
  rw [List.foldlM_cons, h1, except_bind_ok, List.foldlM_cons, h2, except_bind_err]
